import Mathlib

/- Verification of the pyGeo_NM surface-stitching core (pyGeo_NM.py):
   topology stitching (calcEdgeConnectivity / addDGEdge), the global
   control-point numbering (calcGlobalNumbering), knot-size propagation
   (propagateKnotVectors, sizing part), the reference-axis update
   pipeline (_updateCoef, ref_axis.update, rotation matrices), the
   design-variable bookkeeping (addGeoDVNormal / addGeoDVLocal /
   removeCoef) and the connectivity-file round trip
   (writeEdgeConnectivity / readEdgeConnectivity).

   Coordinates are modelled over an arbitrary linearly ordered
   commutative ring R (every coordinate operation the source performs on
   its floating-point data is an ordered-ring operation, distances being
   compared through their squares); concrete witnesses instantiate
   R := ℤ.  The helper module geo_utils is not part of the sources; the
   few helpers the claims depend on (e_dist, nodesFromEdge, flipEdge,
   indexPosition, rotxM, rotyM, rotzM) are modelled from the
   specification, each marked "Modelled from the spec" in its doc
   comment. -/

/-- A 3-component point, modelling a numpy length-3 coordinate array. -/
abbrev Vec3 (R : Type) := R × R × R

section Geometry

variable {R : Type} [LinearOrderedCommRing R]

/-- Squared Euclidean distance between two points. -/
def dist2 (a b : Vec3 R) : R :=
  (a.1 - b.1) ^ 2 + (a.2.1 - b.2.1) ^ 2 + (a.2.2 - b.2.2) ^ 2

/-- Modelled from the spec: `geo_utils.e_dist` (geo_utils is not under
src/) is the Euclidean distance between two points; the source only ever
uses it in comparisons `e_dist(a, b) < tol`.  The same comparison is
expressed through squares: for `tol > 0`, `sqrt d < tol ↔ d < tol ^ 2`,
and for `tol ≤ 0` the comparison is always false since a distance is
nonnegative. -/
def e_dist_lt (a b : Vec3 R) (tol : R) : Bool :=
  decide (0 < tol ∧ dist2 a b < tol ^ 2)

/-! ## Node stitching (calcEdgeConnectivity, node phase)

Source lines 774-801: for each surface corner, scan the node list for a
previous node within `node_tol`; on a match record its index, otherwise
append the corner as a new node and record the fresh index.  The special
case for the very first corner (empty node list, link `inode = 0`)
coincides with the generic append, so a single step function models both
branches. -/

/-- One corner of the node-connectivity scan: return the extended node
list and the node id recorded in `node_link` for this corner.  The
`i + 1` written by the source after an unsuccessful scan equals the
length of the node list before the append. -/
def nodeStep (node_tol : R) (node_list : List (Vec3 R)) (node : Vec3 R) :
    List (Vec3 R) × Nat :=
  match node_list.findIdx? (fun p => e_dist_lt node p node_tol) with
  | some i => (node_list, i)
  | none => (node_list ++ [node], node_list.length)

/-- Scan the corners of one surface in order, extending the node list
and collecting this surface's row of `node_link`. -/
def processCorners (node_tol : R) (node_list : List (Vec3 R)) :
    List (Vec3 R) → List (Vec3 R) × List Nat
  | [] => (node_list, [])
  | c :: cs =>
    let r := nodeStep node_tol node_list c
    let rest := processCorners node_tol r.1 cs
    (rest.1, r.2 :: rest.2)

/-- Process the surfaces in order, collecting all `node_link` rows. -/
def nodePhase (node_tol : R) (node_list : List (Vec3 R)) :
    List (List (Vec3 R)) → List (Vec3 R) × List (List Nat)
  | [] => (node_list, [])
  | cs :: rest =>
    let r := processCorners node_tol node_list cs
    let r2 := nodePhase node_tol r.1 rest
    (r2.1, r.2 :: r2.2)

/-- Node phase of `calcEdgeConnectivity` (lines 774-801): the input is,
for each surface, the list of its (four) corner points as returned by
`getOrigValueCorner`; the output is the deduplicated node list and the
per-surface `node_link` rows. -/
def calcNodeConnectivity (node_tol : R) (corners : List (List (Vec3 R))) :
    List (Vec3 R) × List (List Nat) :=
  nodePhase node_tol [] corners

end Geometry

/-- Concrete corner input used for the node-tolerance counterexample and
witness: one surface whose corners sit at the origin, at distance 9 on
either side of it (tolerance 10), and far away. -/
def cornersC7 : List (List (Vec3 ℤ)) :=
  [[(0, 0, 0), (9, 0, 0), (-9, 0, 0), (100, 100, 100)]]

/-! ## Edge stitching (calcEdgeConnectivity, edge phase)

Source lines 805-845: every surface contributes four boundary edges, in
slot order 0..3; each is described by its two endpoint node ids (the
corner node links through `nodesFromEdge`) and its midpoint (from
`getOrigValuesEdge`).  The working `edge_list` entries are the raw
5-tuples `[n1, n2, mid_point, -1, 0]` of the source. -/

section EdgeDefs

variable {R : Type} [LinearOrderedCommRing R]

/-- One candidate boundary edge of a surface: endpoint node ids and the
midpoint of the edge curve. -/
structure EdgeObs (R : Type) where
  n1 : Nat
  n2 : Nat
  mid : Vec3 R
deriving DecidableEq

/-- A raw entry of the working `edge_list`: the 5-tuple
`[n1, n2, mid_point, dg, Nctl]` (source line 817/840), with `dg = -1`
meaning "design group not assigned yet". -/
structure RawEdge (R : Type) where
  n1 : Nat
  n2 : Nat
  mid : Vec3 R
  dg : Int
  Nctl : Nat
deriving DecidableEq

/-- The raw entry appended for an unmatched edge (source line 817/840). -/
def mkRawEdge (o : EdgeObs R) : RawEdge R :=
  ⟨o.n1, o.n2, o.mid, -1, 0⟩

/-- Default observation used with `List.getD`. -/
def obs0 : EdgeObs R := ⟨0, 0, (0, 0, 0)⟩

/-- Default raw edge entry used with `List.getD`. -/
def re0 : RawEdge R := ⟨0, 0, (0, 0, 0), -1, 0⟩

/-- Match test of one observation against one stored entry (source lines
823-835): the endpoint pair must agree in forward or reversed order, the
endpoints must be distinct, and the midpoints must agree within
`edge_tol`; the result is the recorded direction.  When the forward pair
matches but the midpoint does not, the reversed orientation is not tried
(the source's `elif`). -/
def edgeMatch (o : EdgeObs R) (e : RawEdge R) (edge_tol : R) : Option Int :=
  if o.n1 = e.n1 ∧ o.n2 = e.n2 ∧ o.n1 ≠ o.n2 then
    (if e_dist_lt o.mid e.mid edge_tol then some 1 else none)
  else if o.n2 = e.n1 ∧ o.n1 = e.n2 ∧ o.n1 ≠ o.n2 then
    (if e_dist_lt o.mid e.mid edge_tol then some (-1) else none)
  else none

/-- Scan the stored list from index `i` on.  The source's scan loop has
no `break`, so a later matching entry overwrites an earlier one: the
deepest (latest) match wins. -/
def edgeScanFrom (edge_tol : R) (o : EdgeObs R) :
    Nat → List (RawEdge R) → Option (Nat × Int)
  | _, [] => none
  | i, e :: es =>
    match edgeScanFrom edge_tol o (i + 1) es with
    | some r => some r
    | none =>
      match edgeMatch o e edge_tol with
      | some d => some (i, d)
      | none => none

/-- Scan the whole stored list for the last entry matching `o`. -/
def edgeScan (edge_tol : R) (el : List (RawEdge R)) (o : EdgeObs R) :
    Option (Nat × Int) :=
  edgeScanFrom edge_tol o 0 el

/-- Edge phase of `calcEdgeConnectivity` (lines 805-845), processing the
flattened per-surface, per-slot observations in order.  Returns the
final raw `edge_list` together with, per observation, its
`(edge_link, edge_dir)` pair.  An unmatched observation is appended at
the end of the list and recorded with direction `+1`; the source's
`i + 1` link for that case equals the list length before the append, and
the special branch for the very first edge coincides with the generic
append. -/
def edgeMatchPhase (edge_tol : R) (el : List (RawEdge R)) :
    List (EdgeObs R) → List (RawEdge R) × List (Nat × Int)
  | [] => (el, [])
  | o :: os =>
    match edgeScan edge_tol el o with
    | some r =>
      let rest := edgeMatchPhase edge_tol el os
      (rest.1, r :: rest.2)
    | none =>
      let rest := edgeMatchPhase edge_tol (el ++ [mkRawEdge o]) os
      (rest.1, (el.length, 1) :: rest.2)

/-- Modelled from the spec: `geo_utils.nodesFromEdge` (not under src/)
returns the two corner slots bounding a boundary edge, in the corner
convention `0 ↦ (u,v)=(0,0)`, `1 ↦ (1,0)`, `2 ↦ (0,1)`, `3 ↦ (1,1)` and
the edge convention `0 ↦ v=0`, `1 ↦ v=1`, `2 ↦ u=0`, `3 ↦ u=1` implied
by the index arithmetic of `calcGlobalNumbering`. -/
def nodesFromEdge : Nat → Nat × Nat
  | 0 => (0, 1)
  | 1 => (2, 3)
  | 2 => (0, 2)
  | _ => (1, 3)

/-- Build the flattened edge observations of all surfaces: for surface
`isurf` and slot `iedge`, the endpoint node ids are the surface's corner
node links selected by `nodesFromEdge`, and the midpoint comes from the
per-surface midpoint table (`getOrigValuesEdge`). -/
def buildEdgeObs (node_link : List (List Nat)) (mids : List (List (Vec3 R))) :
    List (EdgeObs R) :=
  (List.range node_link.length).flatMap (fun isurf =>
    (List.range 4).map (fun iedge =>
      { n1 := (node_link.getD isurf []).getD (nodesFromEdge iedge).1 0
        n2 := (node_link.getD isurf []).getD (nodesFromEdge iedge).2 0
        mid := (mids.getD isurf []).getD iedge (0, 0, 0) }))

/-- Concrete edge observations for the degenerate-edge-merging witness:
two surfaces contribute geometrically identical collapsed edges (same
single endpoint node 0, same midpoint), which must still get distinct
edge entries. -/
def obsC10 : List (EdgeObs ℤ) :=
  [⟨0, 0, (1, 1, 1)⟩, ⟨0, 0, (1, 1, 1)⟩]

/-! ## Design groups (calcEdgeConnectivity lines 847-855, addDGEdge)

The flood fill visits, for every surface slot holding the current edge,
the opposite slot of that surface; an opposite edge with unassigned
design group receives the current group and, when its two endpoint node
ids differ, is recursed into.  The recursion is modelled with explicit
fuel: each nested call is preceded by a fresh `-1 → group` assignment,
so a fuel of `edge count + 2` can never run out; a run that does exhaust
its fuel returns `none` and is excluded by the theorems. -/

/-- Modelled from the spec: `geo_utils.flipEdge` (not under src/) maps an
edge slot to the opposite slot on the same surface; per the spec, slot
`e` pairs with slot `3 - e`. -/
def flipEdge (iedge : Nat) : Nat := 3 - iedge

/-- All `(isurf, iedge)` slots scanned by one `addDGEdge` call (source
lines 881-882): surfaces in order, four slots each. -/
def dgSlots (edge_link : List (List Nat)) : List (Nat × Nat) :=
  (List.range edge_link.length).flatMap (fun isurf =>
    (List.range 4).map (fun iedge => (isurf, iedge)))

/-- Record the surface's control count on the visited edge (source
lines 885-888): `Nctlu` for slots 0/1, `Nctlv` for slots 2/3. -/
def dgSetNctl (st : List (RawEdge R)) (i : Nat) (ei : RawEdge R)
    (iedge : Nat) (sz : Nat × Nat) : List (RawEdge R) :=
  st.set i { ei with Nctl := if iedge = 0 ∨ iedge = 1 then sz.1 else sz.2 }

/-- Assign edge `i`'s current design group to the opposite edge `oe`
(source line 893). -/
def dgAssign (st1 : List (RawEdge R)) (i oe : Nat) (eo : RawEdge R) :
    List (RawEdge R) :=
  st1.set oe { eo with dg := (st1.getD i re0).dg }

/-- Body of one `addDGEdge` call (source lines 879-903) over an explicit
slot worklist, parametric in the recursive call `recurse` (the fuelled
`addDGEdgeFuel` below).  For a slot holding edge `i`: record the
surface's control count on edge `i`, look up the opposite edge; if its
group is unassigned, assign it edge `i`'s current group and recurse into
it unless its two endpoint node ids coincide.  Any failed list access
yields `none`. -/
def dgInner (sizes : List (Nat × Nat)) (edge_link : List (List Nat))
    (recurse : Nat → List (RawEdge R) → Option (List (RawEdge R))) :
    List (Nat × Nat) → Nat → List (RawEdge R) → Option (List (RawEdge R))
  | [], _, st => some st
  | (isurf, iedge) :: slots, i, st =>
    match (edge_link.get? isurf).bind (fun row => row.get? iedge) with
    | none => none
    | some en =>
      if en = i then
        match sizes.get? isurf, st.get? i with
        | some sz, some ei =>
          match (edge_link.get? isurf).bind
              (fun row => row.get? (flipEdge iedge)) with
          | none => none
          | some oe =>
            match (dgSetNctl st i ei iedge sz).get? oe with
            | none => none
            | some eo =>
              if eo.dg = -1 then
                (if eo.n1 ≠ eo.n2 then
                  match recurse oe
                      (dgAssign (dgSetNctl st i ei iedge sz) i oe eo) with
                  | none => none
                  | some st3 => dgInner sizes edge_link recurse slots i st3
                else
                  dgInner sizes edge_link recurse slots i
                    (dgAssign (dgSetNctl st i ei iedge sz) i oe eo))
              else dgInner sizes edge_link recurse slots i
                (dgSetNctl st i ei iedge sz)
        | _, _ => none
      else dgInner sizes edge_link recurse slots i st

/-- Fuelled `addDGEdge` recursion: each nesting level consumes one unit
of fuel; exhaustion yields `none`. -/
def addDGEdgeFuel (sizes : List (Nat × Nat)) (edge_link : List (List Nat)) :
    Nat → Nat → List (RawEdge R) → Option (List (RawEdge R))
  | 0, _, _ => none
  | fuel + 1, i, st =>
    dgInner sizes edge_link (addDGEdgeFuel sizes edge_link fuel)
      (dgSlots edge_link) i st

/-- One `addDGEdge` flood-fill call from root edge `i`. -/
def addDGEdge (sizes : List (Nat × Nat)) (edge_link : List (List Nat))
    (fuel i : Nat) (el : List (RawEdge R)) : Option (List (RawEdge R)) :=
  addDGEdgeFuel sizes edge_link fuel i el

/-- One iteration of the design-group main loop: edge `i` becomes a
root when unassigned. -/
def dgPhaseStep (sizes : List (Nat × Nat)) (edge_link : List (List Nat))
    (st : Int × List (RawEdge R)) (i : Nat) :
    Option (Int × List (RawEdge R)) :=
  match st.2.get? i with
  | none => none
  | some e =>
    if e.dg = -1 then
      match addDGEdge sizes edge_link (st.2.length + 2) i
          (st.2.set i { e with dg := st.1 + 1 }) with
      | none => none
      | some el2 => some (st.1 + 1, el2)
    else some st

/-- Design-group phase main loop (source lines 847-855): scan the edges
in order; every edge with unassigned group becomes the root of a fresh
group (`dg_counter` incremented then assigned) and is flood-filled
from. -/
def designGroupPhase (sizes : List (Nat × Nat))
    (edge_link : List (List Nat)) (el0 : List (RawEdge R)) :
    Option (List (RawEdge R)) :=
  match (List.range el0.length).foldlM (dgPhaseStep sizes edge_link)
      ((-1 : Int), el0) with
  | none => none
  | some st => some st.2

/-- Two edge ids are opposite-adjacent when some surface slot holds the
first and the paired slot of the same surface holds the second. -/
def AdjDG (edge_link : List (List Nat)) (e o : Nat) : Prop :=
  ∃ isurf iedge,
    (edge_link.get? isurf).bind (fun row => row.get? iedge) = some e ∧
    (edge_link.get? isurf).bind (fun row => row.get? (flipEdge iedge)) =
      some o

/-- Opposite-edge reachability from a root: the relation a flood fill
confined by `blocked` edges can traverse.  The root itself always
propagates one step; any other edge propagates only when not blocked. -/
inductive ReachDG (edge_link : List (List Nat)) (blocked : Nat → Prop)
    (root : Nat) : Nat → Prop where
  | base : ReachDG edge_link blocked root root
  | step (e o : Nat) : ReachDG edge_link blocked root e →
      (e = root ∨ ¬ blocked e) → AdjDG edge_link e o →
      ReachDG edge_link blocked root o

/-- The blocking predicate of the source's recursion guard (line 896):
an edge blocks the fill iff its two endpoint node ids coincide. -/
def blockedDG (el : List (RawEdge R)) (e : Nat) : Prop :=
  (el.getD e re0).n1 = (el.getD e re0).n2

/-- The fields addDGEdge never rewrites: list length, endpoints and
midpoints are untouched, and an already assigned design group is
final. -/
def PresDG (st st2 : List (RawEdge R)) : Prop :=
  st2.length = st.length ∧
  ∀ e, (st2.getD e re0).n1 = (st.getD e re0).n1 ∧
    (st2.getD e re0).n2 = (st.getD e re0).n2 ∧
    (st2.getD e re0).mid = (st.getD e re0).mid ∧
    ((st.getD e re0).dg ≠ -1 → (st2.getD e re0).dg = (st.getD e re0).dg)

/-- Current design group of edge `e` (out-of-range reads give `-1`). -/
def dgOf (st : List (RawEdge R)) (e : Nat) : Int :=
  (st.getD e re0).dg

/-- The `edge` class of the source (line 2988): one deduplicated
boundary edge record `{n1, n2, cont, degen, intersect, dg, Nctl}`. -/
structure edge where
  n1 : Nat
  n2 : Nat
  cont : Nat
  degen : Nat
  intersect : Nat
  dg : Int
  Nctl : Nat
deriving DecidableEq

/-- Default edge record used with `List.getD`. -/
def edge0 : edge := ⟨0, 0, 0, 0, 0, 0, 0⟩

/-- Build the `edge` objects (source lines 861-872): an edge is marked
degenerate iff its two node indices agree and, additionally, its
midpoint lies within `node_tol` of that node's stored position.  The
node list is only consulted when the indices agree, matching the
short-circuit `and` of the source. -/
def classifyEdges (node_tol : R) (node_list : List (Vec3 R))
    (el : List (RawEdge R)) : Option (List edge) :=
  el.mapM (fun e =>
    if e.n1 = e.n2 then
      match node_list.get? e.n1 with
      | none => none
      | some p =>
        if e_dist_lt e.mid p node_tol then
          some ⟨e.n1, e.n2, 0, 1, 0, e.dg, e.Nctl⟩
        else
          some ⟨e.n1, e.n2, 0, 0, 0, e.dg, e.Nctl⟩
    else some ⟨e.n1, e.n2, 0, 0, 0, e.dg, e.Nctl⟩)

/-- Reshape the flat per-slot edge links into the `(nSurf, 4)` table
`edge_link` (the numpy array of source line 806). -/
def linksToEdgeLink (nSurf : Nat) (links : List (Nat × Int)) :
    List (List Nat) :=
  (List.range nSurf).map (fun isurf =>
    (List.range 4).map (fun iedge => (links.getD (4 * isurf + iedge) (0, 0)).1))

/-- The whole of `calcEdgeConnectivity` (source lines 767-877): node
phase, edge phase over the per-surface corner and midpoint data, design
groups over the reshaped `edge_link` table, and classification into
`edge` objects.  Returns the edge list together with `node_link` and the
per-slot `(edge_link, edge_dir)` rows. -/
def calcEdgeConnectivity (node_tol edge_tol : R) (sizes : List (Nat × Nat))
    (corners : List (List (Vec3 R))) (mids : List (List (Vec3 R))) :
    Option (List edge × List (List Nat) × List (Nat × Int)) :=
  match calcNodeConnectivity node_tol corners with
  | (node_list, node_link) =>
    match edgeMatchPhase edge_tol [] (buildEdgeObs node_link mids) with
    | (raw, links) =>
      match designGroupPhase sizes
          (linksToEdgeLink node_link.length links) raw with
      | none => none
      | some raw2 =>
        match classifyEdges node_tol node_list raw2 with
        | none => none
        | some es => some (es, node_link, links)

/-- Concrete inputs for the design-group counterexample: seven raw
edges over two surfaces.  Edge 1 sits in slot 3 of surface 0 and slot 0
of surface 1; its two endpoints are both node 2 but its midpoint
`(50,0,0)` is far from that node's position, so it is a closed,
non-degenerate edge. -/
def sizesC3 : List (Nat × Nat) := [(4, 4), (4, 4)]

/-- Slot table of the design-group counterexample. -/
def elinkC3 : List (List Nat) := [[0, 3, 4, 1], [1, 5, 6, 2]]

/-- Raw edges of the design-group counterexample. -/
def rawC3 : List (RawEdge ℤ) :=
  [⟨0, 1, (0, 0, 0), -1, 0⟩, ⟨2, 2, (50, 0, 0), -1, 0⟩,
   ⟨3, 4, (0, 0, 0), -1, 0⟩, ⟨0, 5, (0, 0, 0), -1, 0⟩,
   ⟨1, 6, (0, 0, 0), -1, 0⟩, ⟨7, 8, (0, 0, 0), -1, 0⟩,
   ⟨9, 10, (0, 0, 0), -1, 0⟩]

/-- Node positions of the design-group counterexample. -/
def nodesC3 : List (Vec3 ℤ) := List.replicate 11 (0, 0, 0)

/-- Result of the design-group phase on the counterexample input. -/
def elrC3 : List (RawEdge ℤ) :=
  (designGroupPhase sizesC3 elinkC3 rawC3).getD []

end EdgeDefs

/-! ## Global numbering (calcGlobalNumbering, source lines 937-1053)

The function receives the per-surface control grid sizes and the
stitched topology (`node_link`, `edge_list`, `edge_link`, `edge_dir` —
either the stored ones or an explicit subset topology) and produces the
total id count, the global index (per id, the list of `(patch, i, j)`
locations sharing it) and the per-surface local index grid.  The source
asserts `len(sizes) == len(surface_list)`; the model returns `none` in
that case.  As in the source, the edge pre-pass looks surfaces up
through `surface_list[ii]` while the fill loop indexes `edge_link` and
`edge_dir` directly by the position `ii`. -/

section GNDefs

/-- Classification of one grid location. -/
inductive GridPos where
  | interior
  | onEdge (e : Nat)
  | onNode (n : Nat)
deriving DecidableEq

/-- Modelled from the spec: `geo_utils.indexPosition` (not under src/)
classifies grid location `(i, j)` of an `N × M` grid as interior, on a
boundary edge (0: `j = 0`, 1: `j = M-1`, 2: `i = 0`, 3: `i = N-1`) or
on a corner node (0: `(0,0)`, 1: `(N-1,0)`, 2: `(0,M-1)`,
3: `(N-1,M-1)`), the conventions the caller's index arithmetic and
`nodesFromEdge` rely on. -/
def indexPosition (i j N M : Nat) : GridPos :=
  if 0 < i ∧ i < N - 1 ∧ 0 < j ∧ j < M - 1 then .interior
  else if 0 < i ∧ i < N - 1 ∧ j = 0 then .onEdge 0
  else if 0 < i ∧ i < N - 1 ∧ j = M - 1 then .onEdge 1
  else if i = 0 ∧ 0 < j ∧ j < M - 1 then .onEdge 2
  else if i = N - 1 ∧ 0 < j ∧ j < M - 1 then .onEdge 3
  else if i = 0 ∧ j = 0 then .onNode 0
  else if i = N - 1 ∧ j = 0 then .onNode 1
  else if i = 0 ∧ j = M - 1 then .onNode 2
  else .onNode 3

/-- The `(ii, iedge)` pairs of the edge pre-pass, surfaces in order. -/
def gnSlots (n : Nat) : List (Nat × Nat) :=
  (List.range n).flatMap (fun ii =>
    (List.range 4).map (fun iedge => (ii, iedge)))

/-- One slot of the edge pre-pass (source lines 978-1000): populate the
id row of the linked edge if still empty.  `cur_size[iedge] - 2` interior
ids are needed; a degenerate edge repeats its single node's id (after the
`node_index` bounds check), any other edge receives fresh sequential ids
from the counter. -/
def gnPrePassSlot (sizes : List (Nat × Nat)) (surface_list : List Nat)
    (edge_link : List (List Nat)) (edge_list : List edge) (nNode : Nat)
    (st : Nat × List (List Nat)) (slot : Nat × Nat) :
    Option (Nat × List (List Nat)) :=
  match sizes.get? slot.1, surface_list.get? slot.1 with
  | some sz, some isurf =>
    match (edge_link.get? isurf).bind (fun row => row.get? slot.2) with
    | none => none
    | some eid =>
      match st.2.get? eid, edge_list.get? eid with
      | some row, some ed =>
        if row = [] then
          (if ed.degen = 1 then
            (if ed.n1 < nNode then
              some (st.1, st.2.set eid
                (List.replicate ((if slot.2 = 0 ∨ slot.2 = 1 then sz.1
                  else sz.2) - 2) ed.n1))
            else none)
          else
            some (st.1 + ((if slot.2 = 0 ∨ slot.2 = 1 then sz.1
                else sz.2) - 2),
              st.2.set eid (List.range' st.1
                ((if slot.2 = 0 ∨ slot.2 = 1 then sz.1 else sz.2) - 2))))
        else some st
      | _, _ => none
  | _, _ => none

/-- Edge pre-pass: starting from the node count and all-empty rows,
visit every surface slot. -/
def gnPrePass (sizes : List (Nat × Nat)) (surface_list : List Nat)
    (edge_link : List (List Nat)) (edge_list : List edge) (nNode : Nat) :
    Option (Nat × List (List Nat)) :=
  (gnSlots surface_list.length).foldlM
    (gnPrePassSlot sizes surface_list edge_link edge_list nNode)
    (nNode, List.replicate edge_list.length [])

/-- Write one value into a 2-d grid stored as rows. -/
def set2 (g : List (List Int)) (i j : Nat) (v : Int) : List (List Int) :=
  g.set i ((g.getD i []).set j v)

/-- The `(i, j)` cells of an `N × M` grid, row-major. -/
def gridCells (N M : Nat) : List (Nat × Nat) :=
  (List.range N).flatMap (fun i =>
    (List.range M).map (fun j => (i, j)))

/-- One cell of the fill loop (source lines 1017-1050).  Interior cells
get a fresh id appended as a new singleton location list; edge cells
look the id up in the pre-pass row, at a position corrected by the
slot's direction sign; corner cells use the surface's node link.  Every
branch appends the `(isurf, i, j)` location to the id's list and writes
the id into the local grid. -/
def gnCell (node_link edge_link : List (List Nat))
    (edge_dir : List (List Int)) (edge_index : List (List Nat))
    (surface_list : List Nat) (nNode ii N M : Nat)
    (st : Nat × List (List (Nat × Nat × Nat)) × List (List Int))
    (c : Nat × Nat) :
    Option (Nat × List (List (Nat × Nat × Nat)) × List (List Int)) :=
  match surface_list.get? ii with
  | none => none
  | some isurf =>
    match indexPosition c.1 c.2 N M with
    | .interior =>
      some (st.1 + 1, st.2.1 ++ [[(isurf, c.1, c.2)]],
        set2 st.2.2 c.1 c.2 (Int.ofNat st.1))
    | .onEdge e =>
      match (edge_link.get? ii).bind (fun row => row.get? e),
          (edge_dir.get? ii).bind (fun row => row.get? e) with
      | some el, some d =>
        match (edge_index.get? el).bind (fun row => row.get?
            (if e = 0 ∨ e = 1 then
              (if d = -1 then N - c.1 - 2 else c.1 - 1)
            else (if d = -1 then M - c.2 - 2 else c.2 - 1))) with
        | none => none
        | some cur =>
          if cur < st.2.1.length then
            some (st.1, st.2.1.set cur
              (st.2.1.getD cur [] ++ [(isurf, c.1, c.2)]),
              set2 st.2.2 c.1 c.2 (Int.ofNat cur))
          else none
      | _, _ => none
    | .onNode n =>
      match (node_link.get? isurf).bind (fun row => row.get? n) with
      | none => none
      | some cn =>
        if cn < nNode ∧ cn < st.2.1.length then
          some (st.1, st.2.1.set cn
            (st.2.1.getD cn [] ++ [(isurf, c.1, c.2)]),
            set2 st.2.2 c.1 c.2 (Int.ofNat cn))
        else none

/-- Fill one surface: sweep its cells over a fresh `-1`-filled local
grid, then append the finished grid to the local index. -/
def gnSurfStep (node_link edge_link : List (List Nat))
    (edge_dir : List (List Int)) (edge_index : List (List Nat))
    (surface_list : List Nat) (nNode : Nat) (sizes : List (Nat × Nat))
    (st : Nat × List (List (Nat × Nat × Nat)) × List (List (List Int)))
    (ii : Nat) :
    Option (Nat × List (List (Nat × Nat × Nat)) × List (List (List Int))) :=
  match sizes.get? ii with
  | none => none
  | some sz =>
    match (gridCells sz.1 sz.2).foldlM
        (gnCell node_link edge_link edge_dir edge_index surface_list
          nNode ii sz.1 sz.2)
        (st.1, st.2.1,
          List.replicate sz.1 (List.replicate sz.2 (-1 : Int))) with
    | none => none
    | some r => some (r.1, r.2.1, st.2.2 ++ [r.2.2])

/-- `calcGlobalNumbering` (source lines 937-1053): the assert on the
sizes list, the node count from the distinct node links, the edge
pre-pass, then the fill loop over all surfaces. -/
def calcGlobalNumbering (sizes : List (Nat × Nat))
    (surface_list : List Nat) (node_link : List (List Nat))
    (edge_list : List edge) (edge_link : List (List Nat))
    (edge_dir : List (List Int)) :
    Option (Nat × List (List (Nat × Nat × Nat)) × List (List (List Int))) :=
  if sizes.length = surface_list.length then
    match gnPrePass sizes surface_list edge_link edge_list
        (node_link.flatten.dedup.length) with
    | none => none
    | some (counter, edge_index) =>
      (List.range surface_list.length).foldlM
        (gnSurfStep node_link edge_link edge_dir edge_index surface_list
          (node_link.flatten.dedup.length) sizes)
        (counter, List.replicate counter [], [])
  else none

/-- Number of location-list entries holding `t` in the global index. -/
def gnCount (t : Nat × Nat × Nat)
    (g : List (List (Nat × Nat × Nat))) : Nat :=
  (g.map (fun loc => loc.count t)).sum

/-- Total size of all location lists of the global index. -/
def gnTotal (g : List (List (Nat × Nat × Nat))) : Nat :=
  (g.map List.length).sum

/-- The `(patch, i, j)` keys the fill loop processes, in order. -/
def gnKeys (sizes : List (Nat × Nat)) (surface_list : List Nat) :
    List (Nat × Nat × Nat) :=
  (List.range surface_list.length).flatMap (fun ii =>
    (gridCells (sizes.getD ii (0, 0)).1 (sizes.getD ii (0, 0)).2).map
      (fun c => (surface_list.getD ii 0, c.1, c.2)))

/-- Sum of the id-row lengths of all non-degenerate edges. -/
def gnNonDegenSum (edge_list : List edge)
    (edge_index : List (List Nat)) : Nat :=
  ((List.range edge_list.length).map (fun e =>
    if (edge_list.getD e edge0).degen = 1 then 0
    else (edge_index.getD e []).length)).sum

/-- The pre-pass invariant: rows track the edge list, the id counter is
the node count plus all ids handed to non-degenerate edges, and a
degenerate edge's id row repeats only its single node. -/
def gnPreInv (edge_list : List edge) (nNode : Nat)
    (st : Nat × List (List Nat)) : Prop :=
  st.2.length = edge_list.length ∧
  st.1 = nNode + gnNonDegenSum edge_list st.2 ∧
  ∀ e x, (edge_list.getD e edge0).degen = 1 → x ∈ st.2.getD e [] →
    x = (edge_list.getD e edge0).n1

end GNDefs

/-- Witness topology for the global numbering: one `3 x 3` surface with
four distinct corner nodes and four ordinary edges. -/
def gnSizesW : List (Nat × Nat) := [(3, 3)]

/-- Witness node links. -/
def gnNodeLinkW : List (List Nat) := [[0, 1, 2, 3]]

/-- Witness edge objects. -/
def gnEdgeListW : List edge :=
  [⟨0, 1, 0, 0, 0, 0, 3⟩, ⟨2, 3, 0, 0, 0, 1, 3⟩,
   ⟨0, 2, 0, 0, 0, 2, 3⟩, ⟨1, 3, 0, 0, 0, 3, 3⟩]

/-- Witness edge links. -/
def gnEdgeLinkW : List (List Nat) := [[0, 1, 2, 3]]

/-- Witness edge directions. -/
def gnEdgeDirW : List (List Int) := [[1, 1, 1, 1]]

/-- Witness numbering result. -/
def gnResW : Nat × List (List (Nat × Nat × Nat)) × List (List (List Int)) :=
  (calcGlobalNumbering gnSizesW [0] gnNodeLinkW gnEdgeListW gnEdgeLinkW
    gnEdgeDirW).getD (0, [], [])

/-- Witness topology with a degenerate edge: one `3 x 3` surface whose
edge 0 collapses onto node 0 (corners 0 and 1 share that node). -/
def gnNodeLinkW2 : List (List Nat) := [[0, 0, 1, 2]]

/-- Witness edge objects, edge 0 degenerate. -/
def gnEdgeListW2 : List edge :=
  [⟨0, 0, 0, 1, 0, 0, 3⟩, ⟨1, 2, 0, 0, 0, 1, 3⟩,
   ⟨0, 1, 0, 0, 0, 2, 3⟩, ⟨0, 2, 0, 0, 0, 3, 3⟩]

/-- Witness numbering result for the degenerate-edge topology. -/
def gnResW2 : Nat × List (List (Nat × Nat × Nat)) × List (List (List Int)) :=
  (calcGlobalNumbering gnSizesW [0] gnNodeLinkW2 gnEdgeListW2 gnEdgeLinkW
    gnEdgeDirW).getD (0, [], [])

section RefAxisDefs

variable {R : Type} [LinearOrderedCommRing R]

/-- Componentwise sum of two station vectors. -/
def vadd (a b : Vec3 R) : Vec3 R := (a.1 + b.1, a.2.1 + b.2.1, a.2.2 + b.2.2)

/-- A station vector scaled componentwise (the `D*scale` products). -/
def vsmul (a : Vec3 R) (c : R) : Vec3 R := (a.1 * c, a.2.1 * c, a.2.2 * c)

/-- Overwrite the last entry of a list (`coef[-1,:] = ...`). -/
def setLast {α : Type} (l : List α) (x : α) : List α :=
  l.set (l.length - 1) x

/-- The `ref_axis` state touched by `update` and the connection pass
(source lines 3004-3086): station data (`base_point`, offsets `x`,
`rot`, `scale`), the connection anchor parameters, and the
interpolating splines' control coefficients. -/
structure RefAxis (R : Type) where
  base_point : Vec3 R
  x : List (Vec3 R)
  rot : List (Vec3 R)
  scale : List R
  con_type_full : Bool
  end_point : Vec3 R
  base_point_s : R
  base_point_D : Vec3 R
  end_point_s : R
  end_point_D : Vec3 R
  xs_coef : List (Vec3 R)
  rotxs_coef : List R
  rotys_coef : List R
  rotzs_coef : List R
  scales_coef : List R
deriving DecidableEq

/-- `ref_axis.update` (source lines 3073-3086): refresh every spline
coefficient from the current station data; a full connection pins the
last spatial coefficient to the end point. -/
def raUpdate (ra : RefAxis R) : RefAxis R :=
  { ra with
    xs_coef := if ra.con_type_full then
        setLast (ra.x.map (vadd ra.base_point)) ra.end_point
      else ra.x.map (vadd ra.base_point),
    rotxs_coef := ra.rot.map (fun p => p.1),
    rotys_coef := ra.rot.map (fun p => p.2.1),
    rotzs_coef := ra.rot.map (fun p => p.2.2),
    scales_coef := ra.scale }

/-- The anchor recomputation of a connected child axis (source lines
1987-2007): the base point (and, for a full connection, the end point)
is rebuilt from the parent's spline value, local-to-global rotation and
scale at the stored anchor parameter; those three external `pySpline`
evaluations are passed in as oracles. -/
def conAnchor (getValue : RefAxis R → R → Vec3 R)
    (rotL2G : RefAxis R → R → Vec3 R → Vec3 R)
    (scalesAt : RefAxis R → R → R) (a1 a2 : RefAxis R) : RefAxis R :=
  let a2a := { a2 with base_point := (vadd (getValue a1 a2.base_point_s)
    (vsmul (rotL2G a1 a2.base_point_s a2.base_point_D)
      (scalesAt a1 a2.base_point_s))) }
  if a2a.con_type_full then
    { a2a with end_point := (vadd (getValue a1 a2a.end_point_s)
      (vsmul (rotL2G a1 a2a.end_point_s a2a.end_point_D)
        (scalesAt a1 a2a.end_point_s))) }
  else a2a

/-- One connection of step 2 of `_updateCoef` (source lines 1983-2008):
update the parent axis in place, recompute the child's anchors from the
updated parent, then update the child in place. -/
def conStep (getValue : RefAxis R → R → Vec3 R)
    (rotL2G : RefAxis R → R → Vec3 R → Vec3 R)
    (scalesAt : RefAxis R → R → R) (axes : List (RefAxis R))
    (con : Nat × Nat) : Option (List (RefAxis R)) :=
  match axes.get? con.1 with
  | none => none
  | some a1pre =>
    match (axes.set con.1 (raUpdate a1pre)).get? con.2 with
    | none => none
    | some a2 =>
      some ((axes.set con.1 (raUpdate a1pre)).set con.2
        (raUpdate (conAnchor getValue rotL2G scalesAt (raUpdate a1pre) a2)))

/-- Step 2 of `_updateCoef` (source lines 1981-2012): when connections
are recorded, walk the connection list only; otherwise update every
axis directly. -/
def updateCoefStep2 (getValue : RefAxis R → R → Vec3 R)
    (rotL2G : RefAxis R → R → Vec3 R → Vec3 R)
    (scalesAt : RefAxis R → R → R) (cons : List (Nat × Nat))
    (axes : List (RefAxis R)) : Option (List (RefAxis R)) :=
  if 0 < cons.length then
    cons.foldlM (conStep getValue rotL2G scalesAt) axes
  else some (axes.map raUpdate)

end RefAxisDefs

/-- Oracle stub for the witness: parent spline value. -/
def gvW4 : RefAxis ℤ → ℤ → Vec3 ℤ := fun _ _ => (0, 0, 0)

/-- Oracle stub for the witness: local-to-global rotation action. -/
def rlgW4 : RefAxis ℤ → ℤ → Vec3 ℤ → Vec3 ℤ := fun _ _ D => D

/-- Oracle stub for the witness: scale evaluation. -/
def scW4 : RefAxis ℤ → ℤ → ℤ := fun _ _ => 1

/-- An axis whose spline coefficients are stale: `xs_coef` does not
match `base_point + x`. -/
def raStale : RefAxis ℤ :=
  ⟨(0, 0, 0), [(0, 0, 0), (1, 0, 0)], [(0, 0, 0), (0, 0, 0)], [1, 1],
   false, (1, 0, 0), 0, (0, 0, 0), 1, (0, 0, 0),
   [(5, 5, 5), (6, 6, 6)], [0, 0], [0, 0], [0, 0], [1, 1]⟩

/-- Three stale axes; only the first two are connected. -/
def axesW4 : List (RefAxis ℤ) := [raStale, raStale, raStale]

/-- A single connection between axes 0 and 1. -/
def consW4 : List (Nat × Nat) := [(0, 1)]

/-- The axis list after step 2 of `_updateCoef` on the witness model. -/
def resW4 : List (RefAxis ℤ) :=
  (updateCoefStep2 gvW4 rlgW4 scW4 consW4 axesW4).getD []

section RotDefs

/-- A 3-by-3 matrix stored as three rows. -/
abbrev Mat3 (F : Type) := Vec3 (Vec3 F)

variable {F : Type} [Field F]

/-- Dot product of two 3-vectors. -/
def dot3 (a b : Vec3 F) : F := a.1 * b.1 + a.2.1 * b.2.1 + a.2.2 * b.2.2

/-- First column of a matrix. -/
def matCol1 (m : Mat3 F) : Vec3 F := (m.1.1, m.2.1.1, m.2.2.1)

/-- Second column of a matrix. -/
def matCol2 (m : Mat3 F) : Vec3 F := (m.1.2.1, m.2.1.2.1, m.2.2.2.1)

/-- Third column of a matrix. -/
def matCol3 (m : Mat3 F) : Vec3 F := (m.1.2.2, m.2.1.2.2, m.2.2.2.2)

/-- Matrix product (`numpy.dot` on 3-by-3 matrices). -/
def matMul (a b : Mat3 F) : Mat3 F :=
  ((dot3 a.1 (matCol1 b), dot3 a.1 (matCol2 b), dot3 a.1 (matCol3 b)),
   (dot3 a.2.1 (matCol1 b), dot3 a.2.1 (matCol2 b), dot3 a.2.1 (matCol3 b)),
   (dot3 a.2.2 (matCol1 b), dot3 a.2.2 (matCol2 b), dot3 a.2.2 (matCol3 b)))

/-- The identity matrix. -/
def matId : Mat3 F := ((1, 0, 0), (0, 1, 0), (0, 0, 1))

/-- Determinant of a 3-by-3 matrix. -/
def matDet (m : Mat3 F) : F :=
  m.1.1 * (m.2.1.2.1 * m.2.2.2.2 - m.2.1.2.2 * m.2.2.2.1) -
  m.1.2.1 * (m.2.1.1 * m.2.2.2.2 - m.2.1.2.2 * m.2.2.1) +
  m.1.2.2 * (m.2.1.1 * m.2.2.2.1 - m.2.1.2.1 * m.2.2.1)

/-- The matrix inverse (`numpy.linalg.inv` on 3-by-3 matrices), written
through the adjugate over the determinant. -/
def matInv (m : Mat3 F) : Mat3 F :=
  (((m.2.1.2.1 * m.2.2.2.2 - m.2.1.2.2 * m.2.2.2.1) / matDet m,
    (m.1.2.2 * m.2.2.2.1 - m.1.2.1 * m.2.2.2.2) / matDet m,
    (m.1.2.1 * m.2.1.2.2 - m.1.2.2 * m.2.1.2.1) / matDet m),
   ((m.2.1.2.2 * m.2.2.1 - m.2.1.1 * m.2.2.2.2) / matDet m,
    (m.1.1 * m.2.2.2.2 - m.1.2.2 * m.2.2.1) / matDet m,
    (m.1.2.2 * m.2.1.1 - m.1.1 * m.2.1.2.2) / matDet m),
   ((m.2.1.1 * m.2.2.2.1 - m.2.1.2.1 * m.2.2.1) / matDet m,
    (m.1.2.1 * m.2.2.1 - m.1.1 * m.2.2.2.1) / matDet m,
    (m.1.1 * m.2.1.2.1 - m.1.2.1 * m.2.1.1) / matDet m))

/-- Modelled from the spec: `geo_utils.rotxM` (not under src/), the
standard rotation about the x axis, taken at cosine `c` and sine `s` of
the angle. -/
def rotxM (c s : F) : Mat3 F := ((1, 0, 0), (0, c, -s), (0, s, c))

/-- Modelled from the spec: `geo_utils.rotyM` (not under src/), the
standard rotation about the y axis. -/
def rotyM (c s : F) : Mat3 F := ((c, 0, s), (0, 1, 0), (-s, 0, c))

/-- Modelled from the spec: `geo_utils.rotzM` (not under src/), the
standard rotation about the z axis. -/
def rotzM (c s : F) : Mat3 F := ((c, -s, 0), (s, c, 0), (0, 0, 1))

/-- `ref_axis.getRotMatrixGlobalToLocal` (source line 3099): the code
composes `rotyM . rotxM . rotzM`, the three spline-evaluated angles
passed here as cosine and sine pairs. -/
def getRotMatrixGlobalToLocal (cx sx cy sy cz sz : F) : Mat3 F :=
  matMul (rotyM cy sy) (matMul (rotxM cx sx) (rotzM cz sz))

/-- `ref_axis.getRotMatrixLocalToGlobal` (source line 3106): the
inverse of the global-to-local matrix. -/
def getRotMatrixLocalToGlobal (cx sx cy sy cz sz : F) : Mat3 F :=
  matInv (matMul (rotyM cy sy) (matMul (rotxM cx sx) (rotzM cz sz)))

/-- Modelled from the spec: local-to-global composition applying Z,
then Y, then X, read as the matrix product `rotxM * rotyM * rotzM`. -/
def rotLocalToGlobalSpecZYX (cx sx cy sy cz sz : F) : Mat3 F :=
  matMul (rotxM cx sx) (matMul (rotyM cy sy) (rotzM cz sz))

/-- Modelled from the spec: the other reading of the order Z-Y-X, the
literal matrix product `rotzM * rotyM * rotxM`. -/
def rotLocalToGlobalSpecProd (cx sx cy sy cz sz : F) : Mat3 F :=
  matMul (rotzM cz sz) (matMul (rotyM cy sy) (rotxM cx sx))

end RotDefs

section KnotDefs

/-- Python list indexing: non-negative indexes from the front, negative
from the back, out of range is an error. -/
def pyGet {α : Type} (l : List α) (i : Int) : Option α :=
  if 0 ≤ i then l.get? i.toNat
  else if (-i).toNat ≤ l.length then l.get? (l.length - (-i).toNat)
  else none

/-- The per-surface spline state touched by `propagateKnotVectors`'s
sizing pass. -/
structure SurfM where
  Nctlu : Nat
  Nctlv : Nat
  ku : Nat
  kv : Nat
deriving DecidableEq

/-- The `ncoef` extraction (source lines 1196-1205): walk the edge list
and append one control count per strictly increasing design group. -/
def propagateNcoef (edge_list : List edge) : Int × List Nat :=
  edge_list.foldl (fun st e =>
    if e.dg > st.1 then (e.dg, st.2 ++ [e.Nctl]) else st) (-1, [])

/-- The `ku` adjustment (source lines 1211-1217): only when the current
order is below the new count, cap it at 4 or set it to the count. -/
def clampKu (sf : SurfM) : SurfM :=
  if sf.ku < sf.Nctlu then
    (if sf.Nctlu > 4 then { sf with ku := 4 } else { sf with ku := sf.Nctlu })
  else sf

/-- The `kv` adjustment (source lines 1218-1222). -/
def clampKv (sf : SurfM) : SurfM :=
  if sf.kv < sf.Nctlv then
    (if sf.Nctlv > 4 then { sf with kv := 4 } else { sf with kv := sf.Nctlv })
  else sf

/-- One surface of the sizing pass (source lines 1207-1222): look up
the design groups of edges 0 and 2, overwrite both control counts from
`ncoef`, then run both order adjustments. -/
def propagateSizeSurf (edge_list : List edge) (edge_link : List (List Nat))
    (ncoef : List Nat) (isurf : Nat) (sf : SurfM) : Option SurfM :=
  match (edge_link.get? isurf).bind (fun row => row.get? 0),
      (edge_link.get? isurf).bind (fun row => row.get? 2) with
  | some e0, some e2 =>
    match edge_list.get? e0, edge_list.get? e2 with
    | some ed0, some ed2 =>
      match pyGet ncoef ed0.dg, pyGet ncoef ed2.dg with
      | some nu, some nv =>
        some (clampKv (clampKu { sf with Nctlu := nu, Nctlv := nv }))
      | _, _ => none
    | _, _ => none
  | _, _ => none

/-- The sizing pass over the surfaces from a starting index. -/
def propagateSizes (edge_list : List edge) (edge_link : List (List Nat))
    (ncoef : List Nat) : Nat → List SurfM → Option (List SurfM)
  | _, [] => some []
  | isurf, sf :: rest =>
    match propagateSizeSurf edge_list edge_link ncoef isurf sf with
    | none => none
    | some r =>
      match propagateSizes edge_list edge_link ncoef (isurf + 1) rest with
      | none => none
      | some rs => some (r :: rs)

/-- The control-count and order sizing of `propagateKnotVectors`
(source lines 1194-1222); the later knot blending and surface recompute
do not touch `Nctl` or the orders. -/
def propagateKnotSizes (edge_list : List edge)
    (edge_link : List (List Nat)) (surfs : List SurfM) :
    Option (List SurfM) :=
  propagateSizes edge_list edge_link (propagateNcoef edge_list).2 0 surfs

/-- Witness surface for the sizing pass: order 4 in both directions. -/
def surfW6 : SurfM := ⟨10, 10, 4, 4⟩

/-- Witness surfaces. -/
def surfsW6 : List SurfM := [surfW6]

/-- Witness edges: design group 0 has 3 control points, group 1 has
10. -/
def edgeListW6 : List edge :=
  [⟨0, 1, 0, 0, 0, 0, 3⟩, ⟨2, 3, 0, 0, 0, 1, 10⟩]

/-- Witness edge links: the u direction takes group 0, the v direction
group 1. -/
def edgeLinkW6 : List (List Nat) := [[0, 0, 1, 1]]

/-- The sizing result of the witness surfaces. -/
def resW6 : List SurfM :=
  (propagateKnotSizes edgeListW6 edgeLinkW6 surfsW6).getD []

/-- The witness surface after sizing. -/
def resW6one : SurfM := ⟨3, 10, 4, 4⟩

end KnotDefs

section DVDefs

/-- The design-variable group state touched by registration
(source lines 3151-3303): the claimed coefficient ids, the `nVal`
counter and the value array. -/
structure geoDV where
  coef_list : List Nat
  nVal : Int
  value : List Int
deriving DecidableEq

/-- A freshly created group (`geoDVNormal`/`geoDVLocal.__init__`):
`nVal` is the list length and the values start at zero. -/
def mkGeoDV (coef_list : List Nat) : geoDV :=
  ⟨coef_list, (coef_list.length : Int), List.replicate coef_list.length 0⟩

/-- One element of `removeCoef` (source lines 3219-3231): when the id
is present, delete its first occurrence from `coef_list` and decrement
`nVal`; the `numpy.delete` calls on `value` and `local_coef_index`
discard their results, so `value` is untouched. -/
def removeCoefStep (dv : geoDV) (r : Nat) : geoDV :=
  if r ∈ dv.coef_list then
    { dv with coef_list := dv.coef_list.erase r, nVal := dv.nVal - 1 }
  else dv

/-- `geoDVNormal.removeCoef` / `geoDVLocal.removeCoef`: walk the
removal list. -/
def removeCoef (dv : geoDV) (rm_list : List Nat) : geoDV :=
  rm_list.foldl removeCoefStep dv

/-- `list.remove` of Python: drop the first occurrence, error when
absent. -/
def pyRemove (l : List Nat) (r : Nat) : Option (List Nat) :=
  if r ∈ l then some (l.erase r) else none

/-- The scan of one id over one group list in the `overwrite=False`
path (source lines 2370-2380): every group holding the id forces a
`remove` on the pending new list. -/
def dvGroupScan (r : Nat) (gs : List geoDV) (nl : List Nat) :
    Option (List Nat) :=
  gs.foldlM (fun acc dv =>
    if r ∈ dv.coef_list then pyRemove acc r else some acc) nl

/-- One requested id of the `overwrite=False` path: scan the Normal
groups, then the Local groups. -/
def dvDropStep (normals locals_ : List geoDV) (nl : List Nat)
    (r : Nat) : Option (List Nat) :=
  match dvGroupScan r normals nl with
  | none => none
  | some nl2 => dvGroupScan r locals_ nl2

/-- The full `overwrite=False` trim (source lines 2364-2382): starting
from a copy of the requested list, process every requested id. -/
def dvDropClaimed (normals locals_ : List geoDV)
    (coef_list : List Nat) : Option (List Nat) :=
  coef_list.foldlM (dvDropStep normals locals_) coef_list

/-- Whether any registered Normal or Local group claims the id. -/
def claimedBy (normals locals_ : List geoDV) (r : Nat) : Bool :=
  normals.any (fun dv => dv.coef_list.contains r) ||
  locals_.any (fun dv => dv.coef_list.contains r)

/-- `addGeoDVLocal` (source lines 2325-2389), reduced to the group
bookkeeping: with `overwrite` every existing Normal and Local group
drops the requested ids and the new Local group takes the full request;
otherwise the new group takes the request trimmed of claimed ids
(Python raises when a claimed id cannot be removed, modelled as
`none`). -/
def addGeoDVLocal (coef_list : List Nat) (overwrite : Bool)
    (normals locals_ : List geoDV) :
    Option (List geoDV × List geoDV) :=
  if overwrite then
    some (normals.map (fun dv => removeCoef dv coef_list),
      locals_.map (fun dv => removeCoef dv coef_list) ++
        [mkGeoDV coef_list])
  else
    match dvDropClaimed normals locals_ coef_list with
    | none => none
    | some nl => some (normals, locals_ ++ [mkGeoDV nl])

/-- `addGeoDVNormal` (source lines 2259-2323): identical bookkeeping,
the new group joining the Normal list. -/
def addGeoDVNormal (coef_list : List Nat) (overwrite : Bool)
    (normals locals_ : List geoDV) :
    Option (List geoDV × List geoDV) :=
  if overwrite then
    some (normals.map (fun dv => removeCoef dv coef_list) ++
      [mkGeoDV coef_list],
      locals_.map (fun dv => removeCoef dv coef_list))
  else
    match dvDropClaimed normals locals_ coef_list with
    | none => none
    | some nl => some (normals ++ [mkGeoDV nl], locals_)

/-- A previously registered Normal group on the ids 5, 6, 7. -/
def dvN567 : geoDV := ⟨[5, 6, 7], 3, [0, 0, 0]⟩

/-- A Normal group holding the id 5 twice. -/
def dvN55 : geoDV := ⟨[5, 5], 2, [0, 0]⟩

/-- The registration state after a Local overwrite registration of
id 5 against the duplicate group. -/
def dvRes55 : List geoDV × List geoDV :=
  (addGeoDVLocal [5] true [dvN55] []).getD ([], [])

end DVDefs

section ConnFileDefs

/-- One edge line of the connectivity file (`edge.write_info`, source
lines 3001-3003): the running index followed by the seven edge
fields, as the integer cells between the `|` separators. -/
def writeInfo (i : Nat) (e : edge) : List Int :=
  [(i : Int), (e.n1 : Int), (e.n2 : Int), (e.cont : Int),
   (e.degen : Int), (e.intersect : Int), e.dg, (e.Nctl : Int)]

/-- The first four entries of a `Nat` row, as file cells. -/
def row4N (r : List Nat) : Option (List Int) :=
  match r.get? 0, r.get? 1, r.get? 2, r.get? 3 with
  | some a, some b, some c, some d =>
    some [(a : Int), (b : Int), (c : Int), (d : Int)]
  | _, _, _, _ => none

/-- One surface line of the connectivity file (source lines 1148-1152):
index, four node links, four edge links, four edge directions. -/
def surfLine (node_link edge_link : List (List Nat))
    (edge_dir : List (List Int)) (i : Nat) : Option (List Int) :=
  match node_link.get? i, edge_link.get? i, edge_dir.get? i with
  | some nr, some er, some dr =>
    match row4N nr, row4N er,
        (match dr.get? 0, dr.get? 1, dr.get? 2, dr.get? 3 with
         | some a, some b, some c, some d => some [a, b, c, d]
         | _, _, _, _ => none) with
    | some ns, some es, some ds => some ([(i : Int)] ++ ns ++ es ++ ds)
    | _, _, _ => none
  | _, _, _ => none

/-- `writeEdgeConnectivity` (source lines 1135-1156) as the cell rows
of the produced file: the edge count, a header, one line per edge,
another header, one line per surface. -/
def writeEdgeConnectivity (node_link edge_link : List (List Nat))
    (edge_list : List edge) (edge_dir : List (List Int)) :
    Option (List (List Int)) :=
  match (List.range node_link.length).mapM
      (surfLine node_link edge_link edge_dir) with
  | none => none
  | some slines =>
    some ([[(edge_list.length : Int)], []] ++
      (List.range edge_list.length).map
        (fun i => writeInfo i (edge_list.getD i edge0)) ++
      [[]] ++ slines)

/-- `int()` on a cell that must be a count or an index stored in `Nat`
fields: negative values have no `Nat` reading. -/
def readNat (v : Int) : Option Nat :=
  if 0 ≤ v then some v.toNat else none

/-- Parse one edge line (source lines 1170-1174): fields 1-7 feed the
`edge` constructor, the design group staying an integer. -/
def readEdgeLine (cells : List Int) : Option edge :=
  match cells.get? 1, cells.get? 2, cells.get? 3, cells.get? 4,
      cells.get? 5, cells.get? 6, cells.get? 7 with
  | some a, some b, some c, some d, some e, some f, some g =>
    match readNat a, readNat b, readNat c, readNat d, readNat e,
        readNat g with
    | some n1, some n2, some cont, some degen, some inter, some nctl =>
      some ⟨n1, n2, cont, degen, inter, f, nctl⟩
    | _, _, _, _, _, _ => none
  | _, _, _, _, _, _, _ => none

/-- The cells at offsets `off` to `off + 3` of a line. -/
def take4 (cells : List Int) (off : Nat) : Option (List Int) :=
  match cells.get? off, cells.get? (off + 1), cells.get? (off + 2),
      cells.get? (off + 3) with
  | some a, some b, some c, some d => some [a, b, c, d]
  | _, _, _, _ => none

/-- Parse one surface line (source lines 1182-1188): node links from
cells 1-4, edge links from cells 5-8, edge directions from cells
9-12. -/
def readSurfLine (cells : List Int) :
    Option (List Nat × List Nat × List Int) :=
  match take4 cells 1, take4 cells 5, take4 cells 9 with
  | some ns, some es, some ds =>
    match ns.mapM readNat, es.mapM readNat with
    | some ns2, some es2 => some (ns2, es2, ds)
    | _, _ => none
  | _, _, _ => none

/-- `readEdgeConnectivity` (source lines 1158-1192): the edge count
from the first line, `nEdge` edge lines after the header, then one
line per surface (the surface count comes from the object, not the
file) after the second header. -/
def readEdgeConnectivity (nSurf : Nat) (lines : List (List Int)) :
    Option (List edge × List (List Nat) × List (List Nat) ×
      List (List Int)) :=
  match lines.get? 0 with
  | none => none
  | some l0 =>
    match l0.get? 0 with
    | none => none
    | some nE =>
      match readNat nE with
      | none => none
      | some nEdge =>
        match (List.range nEdge).mapM
            (fun i => (lines.get? (2 + i)).bind readEdgeLine) with
        | none => none
        | some edge_list =>
          match (List.range nSurf).mapM
              (fun i => (lines.get? (3 + nEdge + i)).bind readSurfLine) with
          | none => none
          | some rows =>
            some (edge_list, rows.map (fun r => r.1),
              rows.map (fun r => r.2.1), rows.map (fun r => r.2.2))

/-- Witness topology for the file round trip: two patches sharing
edge 1. -/
def nodeLinkW9 : List (List Nat) := [[0, 1, 2, 3], [2, 3, 4, 5]]

/-- Witness edge links. -/
def edgeLinkW9 : List (List Nat) := [[0, 1, 2, 3], [1, 4, 5, 6]]

/-- Witness edge directions. -/
def edgeDirW9 : List (List Int) := [[1, 1, 1, 1], [1, -1, 1, 1]]

/-- Witness edges. -/
def edgeListW9 : List edge :=
  [⟨0, 1, 0, 0, 0, 0, 4⟩, ⟨2, 3, 1, 0, 0, 1, 4⟩, ⟨0, 2, 0, 0, 0, 2, 4⟩,
   ⟨1, 3, 0, 0, 0, 3, 4⟩, ⟨4, 5, 0, 0, 0, 4, 4⟩, ⟨2, 4, 0, 0, 0, 5, 4⟩,
   ⟨3, 5, 0, 0, 0, 6, 4⟩]

end ConnFileDefs

section GeometryProofs

variable {R : Type} [LinearOrderedCommRing R]

/-- Every match found by `nodeStep` is against the stored node position,
and a fresh node is stored at the returned index: the recorded id always
points inside the extended list, within `node_tol` of the corner. -/
lemma nodeStep_spec (node_tol : R) (nl : List (Vec3 R)) (c : Vec3 R)
    (h0 : 0 < node_tol) :
    ∃ t, (nodeStep node_tol nl c).1 = nl ++ t ∧
      (nodeStep node_tol nl c).2 < (nodeStep node_tol nl c).1.length ∧
      dist2 c ((nodeStep node_tol nl c).1.getD (nodeStep node_tol nl c).2
        (0, 0, 0)) < node_tol ^ 2 := by
  cases hf : nl.findIdx? (fun p => e_dist_lt c p node_tol) with
  | some i =>
    obtain ⟨hlt, hidx⟩ := List.findIdx?_eq_some_iff_findIdx_eq.mp hf
    have hw : List.findIdx (fun p => e_dist_lt c p node_tol) nl < nl.length := by
      rw [hidx]; exact hlt
    have hp := @List.findIdx_getElem _ (fun p => e_dist_lt c p node_tol) nl hw
    have hp2 : e_dist_lt c (nl.getD
        (List.findIdx (fun p => e_dist_lt c p node_tol) nl) (0, 0, 0))
        node_tol = true := by
      rw [List.getD_eq_getElem _ _ hw]; exact hp
    rw [hidx] at hp2
    have hd : dist2 c (nl.getD i (0, 0, 0)) < node_tol ^ 2 := by
      rw [e_dist_lt] at hp2
      exact (of_decide_eq_true hp2).2
    refine ⟨[], ?_, ?_, ?_⟩ <;> simp only [nodeStep, hf]
    · simp
    · exact hlt
    · exact hd
  | none =>
    have hz : dist2 c c = 0 := by simp [dist2]
    refine ⟨[c], ?_, ?_, ?_⟩ <;> simp only [nodeStep, hf] <;>
      simp [hz, pow_pos h0 2]

/-- The per-surface corner scan only appends to the node list, returns
one link per corner, and records for every corner a node id whose stored
position is within `node_tol` of that corner. -/
lemma processCorners_spec (node_tol : R) (h0 : 0 < node_tol) :
    ∀ (cs : List (Vec3 R)) (nl : List (Vec3 R)),
      ∃ t, (processCorners node_tol nl cs).1 = nl ++ t ∧
        (processCorners node_tol nl cs).2.length = cs.length ∧
        ∀ k, k < cs.length →
          (processCorners node_tol nl cs).2.getD k 0 <
              (processCorners node_tol nl cs).1.length ∧
            dist2 (cs.getD k (0, 0, 0))
              ((processCorners node_tol nl cs).1.getD
                ((processCorners node_tol nl cs).2.getD k 0) (0, 0, 0)) <
              node_tol ^ 2 := by
  intro cs
  induction cs with
  | nil =>
    intro nl
    exact ⟨[], by simp [processCorners], by simp [processCorners],
      fun k hk => absurd hk (by simp)⟩
  | cons c cs ih =>
    intro nl
    obtain ⟨t0, ht0, hi0, hd0⟩ := nodeStep_spec node_tol nl c h0
    obtain ⟨t1, ht1, hlen, hrec⟩ := ih (nodeStep node_tol nl c).1
    have hres1 : (processCorners node_tol nl (c :: cs)).1 =
        (processCorners node_tol (nodeStep node_tol nl c).1 cs).1 := rfl
    have hres2 : (processCorners node_tol nl (c :: cs)).2 =
        (nodeStep node_tol nl c).2 ::
          (processCorners node_tol (nodeStep node_tol nl c).1 cs).2 := rfl
    refine ⟨t0 ++ t1, ?_, ?_, ?_⟩
    · rw [hres1, ht1, ht0, List.append_assoc]
    · rw [hres2]; simp [hlen]
    · intro k hk
      cases k with
      | zero =>
        have hstep : (processCorners node_tol nl (c :: cs)).2.getD 0 0 =
            (nodeStep node_tol nl c).2 := by rw [hres2]; rfl
        have hfin : (processCorners node_tol nl (c :: cs)).1 =
            (nodeStep node_tol nl c).1 ++ t1 := by rw [hres1, ht1]
        constructor
        · rw [hstep, hfin]
          calc (nodeStep node_tol nl c).2
              < (nodeStep node_tol nl c).1.length := hi0
            _ ≤ ((nodeStep node_tol nl c).1 ++ t1).length := by simp
        · rw [hstep, hfin]
          rw [List.getD_append _ _ _ _ hi0]
          exact hd0
      | succ k =>
        have hk2 : k < cs.length := by simpa using hk
        obtain ⟨ha, hb⟩ := hrec k hk2
        have hstep : (processCorners node_tol nl (c :: cs)).2.getD (k + 1) 0 =
            (processCorners node_tol (nodeStep node_tol nl c).1 cs).2.getD k 0 := by
          rw [hres2]; rfl
        constructor
        · rw [hstep, hres1]; exact ha
        · rw [hstep, hres1]
          simpa using hb

/-- The whole node phase: the final node list extends the initial one,
there is one `node_link` row per surface with one id per corner, and
every corner lies within `node_tol` of its node's stored position. -/
lemma nodePhase_spec (node_tol : R) (h0 : 0 < node_tol) :
    ∀ (corners : List (List (Vec3 R))) (nl : List (Vec3 R)),
      ∃ t, (nodePhase node_tol nl corners).1 = nl ++ t ∧
        (nodePhase node_tol nl corners).2.length = corners.length ∧
        ∀ s, s < corners.length →
          ((nodePhase node_tol nl corners).2.getD s []).length =
              (corners.getD s []).length ∧
          ∀ k, k < (corners.getD s []).length →
            ((nodePhase node_tol nl corners).2.getD s []).getD k 0 <
                (nodePhase node_tol nl corners).1.length ∧
              dist2 ((corners.getD s []).getD k (0, 0, 0))
                ((nodePhase node_tol nl corners).1.getD
                  (((nodePhase node_tol nl corners).2.getD s []).getD k 0)
                  (0, 0, 0)) < node_tol ^ 2 := by
  intro corners
  induction corners with
  | nil =>
    intro nl
    exact ⟨[], by simp [nodePhase], by simp [nodePhase],
      fun s hs => absurd hs (by simp)⟩
  | cons cs rest ih =>
    intro nl
    obtain ⟨t0, ht0, hlen0, hrow0⟩ := processCorners_spec node_tol h0 cs nl
    obtain ⟨t1, ht1, hlen1, hrows⟩ := ih (processCorners node_tol nl cs).1
    have hres1 : (nodePhase node_tol nl (cs :: rest)).1 =
        (nodePhase node_tol (processCorners node_tol nl cs).1 rest).1 := rfl
    have hres2 : (nodePhase node_tol nl (cs :: rest)).2 =
        (processCorners node_tol nl cs).2 ::
          (nodePhase node_tol (processCorners node_tol nl cs).1 rest).2 := rfl
    refine ⟨t0 ++ t1, ?_, ?_, ?_⟩
    · rw [hres1, ht1, ht0, List.append_assoc]
    · rw [hres2]; simp [hlen1]
    · intro s hs
      cases s with
      | zero =>
        have hrow : (nodePhase node_tol nl (cs :: rest)).2.getD 0 [] =
            (processCorners node_tol nl cs).2 := by rw [hres2]; rfl
        have hfin : (nodePhase node_tol nl (cs :: rest)).1 =
            (processCorners node_tol nl cs).1 ++ t1 := by rw [hres1, ht1]
        refine ⟨by rw [hrow]; simpa using hlen0, ?_⟩
        intro k hk
        have hk2 : k < cs.length := by simpa using hk
        obtain ⟨ha, hb⟩ := hrow0 k hk2
        refine ⟨?_, ?_⟩
        · rw [hrow, hfin]
          calc (processCorners node_tol nl cs).2.getD k 0
              < (processCorners node_tol nl cs).1.length := ha
            _ ≤ ((processCorners node_tol nl cs).1 ++ t1).length := by simp
        · rw [hrow, hfin, List.getD_append _ _ _ _ ha]
          simpa using hb
      | succ s =>
        have hs2 : s < rest.length := by simpa using hs
        obtain ⟨ha, hb⟩ := hrows s hs2
        have hrow : (nodePhase node_tol nl (cs :: rest)).2.getD (s + 1) [] =
            (nodePhase node_tol (processCorners node_tol nl cs).1 rest).2.getD
              s [] := by rw [hres2]; rfl
        refine ⟨by rw [hrow]; simpa using ha, ?_⟩
        intro k hk
        have hk2 : k < (rest.getD s []).length := by simpa using hk
        obtain ⟨hc, hd⟩ := hb k hk2
        refine ⟨by rw [hrow, hres1]; exact hc, ?_⟩
        rw [hrow, hres1]
        simpa using hd

/-- Two points each within `t` of a common third point are within `2 t`
of each other, phrased through squared distances. -/
lemma dist2_two_near (a b c : Vec3 R) (t : R) (h1 : dist2 a b < t ^ 2)
    (h2 : dist2 c b < t ^ 2) : dist2 a c < (2 * t) ^ 2 := by
  simp only [dist2] at *
  nlinarith [sq_nonneg (a.1 - 2 * b.1 + c.1),
    sq_nonneg (a.2.1 - 2 * b.2.1 + c.2.1),
    sq_nonneg (a.2.2 - 2 * b.2.2 + c.2.2)]

/-- C7, counterexample.  The greedy scan of `calcEdgeConnectivity`
compares each corner against the stored node position only, so two later
corners can join the same node from opposite sides: with `node_tol = 10`
the corners `(9,0,0)` and `(-9,0,0)` both match the node stored at the
origin and receive the same node id, yet their mutual distance is 18,
not within `node_tol`.  This refutes the claim that any two corners
sharing a node id lie within `node_tol` of each other. -/
theorem calcNodeConnectivity_same_id_not_within_node_tol :
    ((calcNodeConnectivity (10 : ℤ) cornersC7).2.getD 0 []).getD 1 0 =
      ((calcNodeConnectivity (10 : ℤ) cornersC7).2.getD 0 []).getD 2 0 ∧
    ¬ dist2 ((cornersC7.getD 0 []).getD 1 (0, 0, 0))
        ((cornersC7.getD 0 []).getD 2 (0, 0, 0)) < (10 : ℤ) ^ 2 := by
  decide

/-- C7, amended.  After the node phase of `calcEdgeConnectivity` with a
positive tolerance, any two patch corners assigned the same node id lie
within `2 * node_tol` of each other (each is within `node_tol` of the
stored node position, which need not be either corner). -/
theorem calcNodeConnectivity_same_id_within_two_node_tol (node_tol : R)
    (corners : List (List (Vec3 R))) (h0 : 0 < node_tol)
    (s1 k1 s2 k2 : Nat) (hs1 : s1 < corners.length)
    (hk1 : k1 < (corners.getD s1 []).length)
    (hs2 : s2 < corners.length) (hk2 : k2 < (corners.getD s2 []).length)
    (heq : ((calcNodeConnectivity node_tol corners).2.getD s1 []).getD k1 0 =
      ((calcNodeConnectivity node_tol corners).2.getD s2 []).getD k2 0) :
    dist2 ((corners.getD s1 []).getD k1 (0, 0, 0))
      ((corners.getD s2 []).getD k2 (0, 0, 0)) < (2 * node_tol) ^ 2 := by
  obtain ⟨t, _, _, hmain⟩ := nodePhase_spec node_tol h0 corners []
  obtain ⟨_, h1⟩ := hmain s1 hs1
  obtain ⟨_, h2⟩ := hmain s2 hs2
  obtain ⟨hv1, hd1⟩ := h1 k1 hk1
  obtain ⟨hv2, hd2⟩ := h2 k2 hk2
  have heq2 : ((nodePhase node_tol [] corners).2.getD s1 []).getD k1 0 =
      ((nodePhase node_tol [] corners).2.getD s2 []).getD k2 0 := heq
  rw [heq2] at hd1
  exact dist2_two_near _ _ _ _ hd1 hd2

/-- C7, witness for the amended theorem at the concrete corner input. -/
theorem calcNodeConnectivity_same_id_within_two_node_tol_witness :
    dist2 ((cornersC7.getD 0 []).getD 1 (0, 0, 0))
      ((cornersC7.getD 0 []).getD 2 (0, 0, 0)) < (2 * (10 : ℤ)) ^ 2 :=
  calcNodeConnectivity_same_id_within_two_node_tol 10 cornersC7 (by decide)
    0 1 0 2 (by decide) (by decide) (by decide) (by decide) (by decide)

end GeometryProofs

section EdgeProofs

variable {R : Type} [LinearOrderedCommRing R]

/-- An observation with equal endpoint nodes matches no stored entry:
both branches of the match test require `n1 ≠ n2`. -/
lemma edgeMatch_none_of_eq (o : EdgeObs R) (e : RawEdge R) (edge_tol : R)
    (h : o.n1 = o.n2) : edgeMatch o e edge_tol = none := by
  simp [edgeMatch, h]

/-- A successful match points at an entry whose own endpoints differ. -/
lemma edgeMatch_some_imp (o : EdgeObs R) (e : RawEdge R) (edge_tol : R)
    (d : Int) (h : edgeMatch o e edge_tol = some d) : e.n1 ≠ e.n2 := by
  by_cases h1 : o.n1 = e.n1 ∧ o.n2 = e.n2 ∧ o.n1 ≠ o.n2
  · obtain ⟨a, b, c⟩ := h1
    rw [← a, ← b]; exact c
  · by_cases h2 : o.n2 = e.n1 ∧ o.n1 = e.n2 ∧ o.n1 ≠ o.n2
    · obtain ⟨a, b, c⟩ := h2
      rw [← a, ← b]; exact fun hx => c hx.symm
    · simp [edgeMatch, h1, h2] at h

/-- The scan never matches an observation with equal endpoints. -/
lemma edgeScanFrom_none_of_eq (edge_tol : R) (o : EdgeObs R)
    (h : o.n1 = o.n2) : ∀ (el : List (RawEdge R)) (i : Nat),
    edgeScanFrom edge_tol o i el = none := by
  intro el
  induction el with
  | nil => intro i; rfl
  | cons e es ih =>
    intro i
    simp [edgeScanFrom, ih (i + 1), edgeMatch_none_of_eq o e edge_tol h]

/-- A successful scan from offset `i` returns an index past `i`, inside
the list, whose entry matches with the returned direction. -/
lemma edgeScanFrom_some (edge_tol : R) (o : EdgeObs R) :
    ∀ (el : List (RawEdge R)) (i j : Nat) (d : Int),
    edgeScanFrom edge_tol o i el = some (j, d) →
    i ≤ j ∧ j - i < el.length ∧
      edgeMatch o (el.getD (j - i) re0) edge_tol = some d := by
  intro el
  induction el with
  | nil => intro i j d h; exact absurd h (by simp [edgeScanFrom])
  | cons e es ih =>
    intro i j d h
    rw [edgeScanFrom] at h
    cases hrest : edgeScanFrom edge_tol o (i + 1) es with
    | some r =>
      rw [hrest] at h
      obtain rfl : r = (j, d) := by simpa using h
      obtain ⟨hij, hlt, hm⟩ := ih (i + 1) j d hrest
      refine ⟨by omega, by simp; omega, ?_⟩
      have hidx : j - i = (j - (i + 1)) + 1 := by omega
      rw [hidx]
      simpa using hm
    | none =>
      rw [hrest] at h
      cases hm : edgeMatch o e edge_tol with
      | some d2 =>
        rw [hm] at h
        obtain ⟨rfl, rfl⟩ : i = j ∧ d2 = d := by
          constructor <;> [skip; skip] <;> simp_all
        refine ⟨le_refl _, by simp, ?_⟩
        simpa using hm
      | none => rw [hm] at h; exact absurd h (by simp)

/-- A successful whole-list scan: valid index with a matching entry. -/
lemma edgeScan_some (edge_tol : R) (o : EdgeObs R) (el : List (RawEdge R))
    (j : Nat) (d : Int) (h : edgeScan edge_tol el o = some (j, d)) :
    j < el.length ∧ edgeMatch o (el.getD j re0) edge_tol = some d := by
  obtain ⟨_, hlt, hm⟩ := edgeScanFrom_some edge_tol o el 0 j d h
  have hz : j - 0 = j := Nat.sub_zero j
  rw [hz] at hlt hm
  exact ⟨hlt, hm⟩

/-- Main invariant of the edge-matching phase: the stored list only
grows; one link per observation; every link either points at an entry
that positively matched the observation, or is a fresh entry recording
the observation itself with direction `+1`; and the link of an
observation with equal endpoint nodes is shared with no other
observation. -/
lemma edgeMatchPhase_spec (edge_tol : R) :
    ∀ (obs : List (EdgeObs R)) (el : List (RawEdge R)),
    ∃ t, (edgeMatchPhase edge_tol el obs).1 = el ++ t ∧
      (edgeMatchPhase edge_tol el obs).2.length = obs.length ∧
      (∀ k, k < obs.length →
        ((edgeMatchPhase edge_tol el obs).2.getD k (0, 0)).1 <
            (edgeMatchPhase edge_tol el obs).1.length ∧
          (edgeMatch (obs.getD k obs0)
              ((edgeMatchPhase edge_tol el obs).1.getD
                ((edgeMatchPhase edge_tol el obs).2.getD k (0, 0)).1 re0)
              edge_tol =
              some ((edgeMatchPhase edge_tol el obs).2.getD k (0, 0)).2 ∨
            (((edgeMatchPhase edge_tol el obs).2.getD k (0, 0)).2 = 1 ∧
              (edgeMatchPhase edge_tol el obs).1.getD
                ((edgeMatchPhase edge_tol el obs).2.getD k (0, 0)).1 re0 =
                mkRawEdge (obs.getD k obs0) ∧
              el.length ≤
                ((edgeMatchPhase edge_tol el obs).2.getD k (0, 0)).1))) ∧
      (∀ k k2, k < obs.length → k2 < obs.length → k ≠ k2 →
        (obs.getD k obs0).n1 = (obs.getD k obs0).n2 →
        ((edgeMatchPhase edge_tol el obs).2.getD k (0, 0)).1 ≠
          ((edgeMatchPhase edge_tol el obs).2.getD k2 (0, 0)).1) := by
  intro obs
  induction obs with
  | nil =>
    intro el
    exact ⟨[], by simp [edgeMatchPhase], by simp [edgeMatchPhase],
      fun k hk => absurd hk (by simp), fun k k2 hk => absurd hk (by simp)⟩
  | cons o os ih =>
    intro el
    cases hscan : edgeScan edge_tol el o with
    | some r =>
      obtain ⟨j, d⟩ := r
      obtain ⟨hj, hmj⟩ := edgeScan_some edge_tol o el j d hscan
      obtain ⟨t, ht, hlen, hP, hC⟩ := ih el
      have hres1 : (edgeMatchPhase edge_tol el (o :: os)).1 =
          (edgeMatchPhase edge_tol el os).1 := by
        simp [edgeMatchPhase, hscan]
      have hres2 : (edgeMatchPhase edge_tol el (o :: os)).2 =
          (j, d) :: (edgeMatchPhase edge_tol el os).2 := by
        simp [edgeMatchPhase, hscan]
      have hstable : (edgeMatchPhase edge_tol el os).1.getD j re0 =
          el.getD j re0 := by
        rw [ht]; exact List.getD_append _ _ _ _ hj
      refine ⟨t, by rw [hres1, ht], by rw [hres2]; simp [hlen], ?_, ?_⟩
      · intro k hk
        rw [hres1, hres2]
        cases k with
        | zero =>
          simp only [List.getD_cons_zero]
          have hjlt : j < (edgeMatchPhase edge_tol el os).1.length := by
            rw [ht]; simp only [List.length_append]; omega
          refine ⟨hjlt, Or.inl ?_⟩
          rw [hstable]
          exact hmj
        | succ k =>
          simp only [List.getD_cons_succ]
          exact hP k (by simpa using hk)
      · intro k k2 hk hk2 hne hdeg
        rw [hres2]
        cases k with
        | zero =>
          exfalso
          simp only [List.getD_cons_zero] at hdeg
          have hnone := edgeScanFrom_none_of_eq edge_tol o hdeg el 0
          rw [edgeScan] at hscan
          rw [hnone] at hscan
          exact Option.noConfusion hscan
        | succ k =>
          simp only [List.getD_cons_succ] at hdeg ⊢
          have hk' : k < os.length := by simpa using hk
          cases k2 with
          | zero =>
            simp only [List.getD_cons_zero]
            obtain ⟨ha, hb⟩ := hP k hk'
            have hbB := hb
            rcases hbB with hmatch | ⟨_, _, hge⟩
            · intro hx
              rw [edgeMatch_none_of_eq _ _ _ hdeg] at hmatch
              exact Option.noConfusion hmatch
            · omega
          | succ k2 =>
            simp only [List.getD_cons_succ]
            exact hC k k2 hk' (by simpa using hk2) (by omega) hdeg
    | none =>
      obtain ⟨t, ht, hlen, hP, hC⟩ := ih (el ++ [mkRawEdge o])
      have hres1 : (edgeMatchPhase edge_tol el (o :: os)).1 =
          (edgeMatchPhase edge_tol (el ++ [mkRawEdge o]) os).1 := by
        simp [edgeMatchPhase, hscan]
      have hres2 : (edgeMatchPhase edge_tol el (o :: os)).2 =
          (el.length, 1) ::
            (edgeMatchPhase edge_tol (el ++ [mkRawEdge o]) os).2 := by
        simp [edgeMatchPhase, hscan]
      have hlen2 : (el ++ [mkRawEdge o]).length = el.length + 1 := by simp
      have hfreshentry :
          (edgeMatchPhase edge_tol (el ++ [mkRawEdge o]) os).1.getD
            el.length re0 = mkRawEdge o := by
        rw [ht]
        rw [List.getD_append _ _ _ _ (by simp)]
        rw [List.getD_eq_getElem _ _ (by simp)]
        rw [List.getElem_append_right (le_refl _)]
        simp
      refine ⟨mkRawEdge o :: t, ?_, ?_, ?_, ?_⟩
      · rw [hres1, ht]; simp
      · rw [hres2]; simp [hlen]
      · intro k hk
        rw [hres1, hres2]
        cases k with
        | zero =>
          simp only [List.getD_cons_zero]
          refine ⟨?_, Or.inr ⟨by simp, hfreshentry, le_refl _⟩⟩
          rw [ht, List.length_append, hlen2]
          omega
        | succ k =>
          simp only [List.getD_cons_succ]
          obtain ⟨ha, hb⟩ := hP k (by simpa using hk)
          refine ⟨ha, ?_⟩
          rcases hb with hmatch | ⟨h1, h2, h3⟩
          · exact Or.inl hmatch
          · rw [hlen2] at h3
            exact Or.inr ⟨h1, h2, by omega⟩
      · intro k k2 hk hk2 hne hdeg
        rw [hres2]
        cases k with
        | zero =>
          simp only [List.getD_cons_zero] at hdeg ⊢
          cases k2 with
          | zero => exact absurd rfl hne
          | succ k2 =>
            simp only [List.getD_cons_succ]
            obtain ⟨ha, hb⟩ := hP k2 (by simpa using hk2)
            rcases hb with hmatch | ⟨_, _, hge⟩
            · intro hx
              rw [← hx] at hmatch
              rw [hfreshentry] at hmatch
              have hne2 := edgeMatch_some_imp _ _ _ _ hmatch
              exact hne2 (by simpa [mkRawEdge] using hdeg)
            · rw [hlen2] at hge
              omega
        | succ k =>
          simp only [List.getD_cons_succ] at hdeg ⊢
          have hk' : k < os.length := by simpa using hk
          cases k2 with
          | zero =>
            simp only [List.getD_cons_zero]
            obtain ⟨ha, hb⟩ := hP k hk'
            rcases hb with hmatch | ⟨_, _, hge⟩
            · rw [edgeMatch_none_of_eq _ _ _ hdeg] at hmatch
              exact absurd hmatch (by simp)
            · rw [hlen2] at hge
              omega
          | succ k2 =>
            simp only [List.getD_cons_succ]
            exact hC k k2 hk' (by simpa using hk2) (by omega) hdeg

/-- C10.  In the edge phase of `calcEdgeConnectivity`, a boundary edge
whose two endpoint corners map to the same node id is never matched
against any existing entry (both branches of the match test require
distinct endpoints): it is recorded with direction `+1`, a fresh entry
holding exactly its own data is appended for it, and no other edge slot
of any surface ever links to that entry — even a slot contributing a
geometrically identical edge.  Closed or collapsed boundary edges are
therefore never merged across patches. -/
theorem edgeMatchPhase_equal_node_edge_never_merged (edge_tol : R)
    (obs : List (EdgeObs R)) (k : Nat) (hk : k < obs.length)
    (hdeg : (obs.getD k obs0).n1 = (obs.getD k obs0).n2) :
    ((edgeMatchPhase edge_tol [] obs).2.getD k (0, 0)).2 = 1 ∧
    (edgeMatchPhase edge_tol [] obs).1.getD
        ((edgeMatchPhase edge_tol [] obs).2.getD k (0, 0)).1 re0 =
      mkRawEdge (obs.getD k obs0) ∧
    ∀ k2, k2 < obs.length → k2 ≠ k →
      ((edgeMatchPhase edge_tol [] obs).2.getD k2 (0, 0)).1 ≠
        ((edgeMatchPhase edge_tol [] obs).2.getD k (0, 0)).1 := by
  obtain ⟨t, ht, hlen, hP, hC⟩ := edgeMatchPhase_spec edge_tol obs []
  obtain ⟨ha, hb⟩ := hP k hk
  rcases hb with hmatch | ⟨h1, h2, _⟩
  · rw [edgeMatch_none_of_eq _ _ _ hdeg] at hmatch
    exact absurd hmatch (by simp)
  · refine ⟨h1, h2, ?_⟩
    intro k2 hk2 hne hx
    exact (hC k k2 hk hk2 (fun h => hne h.symm) hdeg) hx.symm

/-- C10, witness: two geometrically identical collapsed edges from two
patches still receive distinct edge entries, the first one with
direction `+1` and its own fresh entry. -/
theorem edgeMatchPhase_equal_node_edge_never_merged_witness :
    0 < obsC10.length ∧
    (obsC10.getD 0 obs0).n1 = (obsC10.getD 0 obs0).n2 ∧
    (((edgeMatchPhase (5 : ℤ) [] obsC10).2.getD 0 (0, 0)).2 = 1 ∧
      (edgeMatchPhase (5 : ℤ) [] obsC10).1.getD
          ((edgeMatchPhase (5 : ℤ) [] obsC10).2.getD 0 (0, 0)).1 re0 =
        mkRawEdge (obsC10.getD 0 obs0) ∧
      ∀ k2, k2 < obsC10.length → k2 ≠ 0 →
        ((edgeMatchPhase (5 : ℤ) [] obsC10).2.getD k2 (0, 0)).1 ≠
          ((edgeMatchPhase (5 : ℤ) [] obsC10).2.getD 0 (0, 0)).1) :=
  ⟨by decide, by decide,
    edgeMatchPhase_equal_node_edge_never_merged 5 obsC10 0 (by decide)
      (by decide)⟩

end EdgeProofs

section DGProofs

variable {R : Type} [LinearOrderedCommRing R]

/-- `getD` after `set` at the written position. -/
lemma getD_set_self {α : Type} (l : List α) (k : Nat) (x d : α)
    (h : k < l.length) : (l.set k x).getD k d = x := by
  rw [List.getD_eq_getElem _ _ (by simpa using h)]
  exact List.getElem_set_self _

/-- `getD` after `set` at another position. -/
lemma getD_set_ne {α : Type} (l : List α) (k j : Nat) (x d : α)
    (h : k ≠ j) : (l.set k x).getD j d = l.getD j d := by
  by_cases hj : j < l.length
  · rw [List.getD_eq_getElem _ _ (by simpa using hj),
      List.getD_eq_getElem _ _ hj]
    exact List.getElem_set_ne h _
  · rw [List.getD_eq_default _ _ (by simpa using Nat.le_of_not_lt hj),
      List.getD_eq_default _ _ (Nat.le_of_not_lt hj)]

/-- `getD` agrees with a successful `get?`. -/
lemma getD_of_get?_eq_some {α : Type} {l : List α} {k : Nat} {x : α}
    (d : α) (h : l.get? k = some x) : l.getD k d = x := by
  have hk : k < l.length := by
    by_contra hk
    rw [List.get?_eq_none.mpr (Nat.le_of_not_lt hk)] at h
    exact Option.noConfusion h
  rw [List.getD_eq_getElem _ _ hk]
  rw [List.get?_eq_getElem? ] at h
  rw [List.getElem?_eq_getElem hk] at h
  exact Option.some.inj h

lemma PresDG_refl (st : List (RawEdge R)) : PresDG st st :=
  ⟨rfl, fun _ => ⟨rfl, rfl, rfl, fun _ => rfl⟩⟩

lemma PresDG_trans {a b c : List (RawEdge R)} (h1 : PresDG a b)
    (h2 : PresDG b c) : PresDG a c := by
  obtain ⟨hl1, hf1⟩ := h1
  obtain ⟨hl2, hf2⟩ := h2
  refine ⟨hl2.trans hl1, fun e => ?_⟩
  obtain ⟨a1, a2, a3, a4⟩ := hf1 e
  obtain ⟨b1, b2, b3, b4⟩ := hf2 e
  refine ⟨b1.trans a1, b2.trans a2, b3.trans a3, fun hd => ?_⟩
  rw [b4, a4 hd]
  rw [a4 hd]
  exact hd

/-- Setting a fresh `Nctl` on an existing entry preserves everything
`PresDG` tracks. -/
lemma presDG_set_nctl (st : List (RawEdge R)) (i : Nat) (ei : RawEdge R)
    (h : st.get? i = some ei) (nctl : Nat) :
    PresDG st (st.set i { ei with Nctl := nctl }) := by
  refine ⟨by simp, fun e => ?_⟩
  by_cases he : i = e
  · subst he
    have hi : i < st.length := by
      by_contra hk
      rw [List.get?_eq_none.mpr (Nat.le_of_not_lt hk)] at h
      exact Option.noConfusion h
    rw [getD_set_self _ _ _ _ hi, getD_of_get?_eq_some re0 h]
    exact ⟨rfl, rfl, rfl, fun _ => rfl⟩
  · rw [getD_set_ne _ _ _ _ _ he]
    exact ⟨rfl, rfl, rfl, fun _ => rfl⟩

/-- Assigning a design group to an entry whose group is `-1` preserves
everything `PresDG` tracks. -/
lemma presDG_set_dg (st : List (RawEdge R)) (oe : Nat) (eo : RawEdge R)
    (h : st.get? oe = some eo) (hdg : eo.dg = -1) (v : Int) :
    PresDG st (st.set oe { eo with dg := v }) := by
  refine ⟨by simp, fun e => ?_⟩
  by_cases he : oe = e
  · subst he
    have hi : oe < st.length := by
      by_contra hk
      rw [List.get?_eq_none.mpr (Nat.le_of_not_lt hk)] at h
      exact Option.noConfusion h
    rw [getD_set_self _ _ _ _ hi, getD_of_get?_eq_some re0 h]
    exact ⟨rfl, rfl, rfl, fun hne => absurd hdg hne⟩
  · rw [getD_set_ne _ _ _ _ _ he]
    exact ⟨rfl, rfl, rfl, fun _ => rfl⟩

/-- `PresDG` holds for the `Nctl` write of a visited slot. -/
lemma presDG_dgSetNctl (st : List (RawEdge R)) (i : Nat) (ei : RawEdge R)
    (iedge : Nat) (sz : Nat × Nat) (h : st.get? i = some ei) :
    PresDG st (dgSetNctl st i ei iedge sz) :=
  presDG_set_nctl st i ei h _

/-- `PresDG` holds for the group assignment to an unassigned edge. -/
lemma presDG_dgAssign (st1 : List (RawEdge R)) (i oe : Nat)
    (eo : RawEdge R) (h : st1.get? oe = some eo) (hdg : eo.dg = -1) :
    PresDG st1 (dgAssign st1 i oe eo) :=
  presDG_set_dg st1 oe eo h hdg _

/-- `dgInner` never rewrites endpoints, midpoints, lengths or an
already assigned design group, provided its recursive call does not. -/
lemma dgInner_pres (sizes : List (Nat × Nat)) (edge_link : List (List Nat))
    (recurse : Nat → List (RawEdge R) → Option (List (RawEdge R)))
    (hrec : ∀ oe st st2, recurse oe st = some st2 → PresDG st st2) :
    ∀ (slots : List (Nat × Nat)) (i : Nat) (st st2 : List (RawEdge R)),
    dgInner sizes edge_link recurse slots i st = some st2 →
    PresDG st st2 := by
  intro slots
  induction slots with
  | nil =>
    intro i st st2 h
    simp only [dgInner] at h
    cases h
    exact PresDG_refl st
  | cons slot slots ihs =>
    obtain ⟨isurf, iedge⟩ := slot
    intro i st st2 h
    rw [dgInner] at h
    split at h
    · exact Option.noConfusion h
    · rename_i en hen
      split at h
      · rename_i heni
        split at h
        · rename_i sz ei hsz hst
          have hp1 := presDG_dgSetNctl st i ei iedge sz hst
          split at h
          · exact Option.noConfusion h
          · rename_i oe hoe
            split at h
            · exact Option.noConfusion h
            · rename_i eo heo
              split at h
              · rename_i hdgm1
                have hp2 := presDG_dgAssign (dgSetNctl st i ei iedge sz)
                  i oe eo heo hdgm1
                split at h
                · rename_i hneq
                  split at h
                  · exact Option.noConfusion h
                  · rename_i st3 hst3
                    have hp3 := hrec oe _ _ hst3
                    have hp4 := ihs i _ _ h
                    exact PresDG_trans (PresDG_trans (PresDG_trans hp1 hp2)
                      hp3) hp4
                · rename_i hneq
                  have hp4 := ihs i _ _ h
                  exact PresDG_trans (PresDG_trans hp1 hp2) hp4
              · rename_i hdgm1
                have hp4 := ihs i _ _ h
                exact PresDG_trans hp1 hp4
        · exact Option.noConfusion h
      · exact ihs i _ _ h

/-- `addDGEdgeFuel` never rewrites endpoints, midpoints, lengths or an
already assigned design group. -/
lemma addDGEdgeFuel_pres (sizes : List (Nat × Nat))
    (edge_link : List (List Nat)) :
    ∀ (fuel i : Nat) (st st2 : List (RawEdge R)),
    addDGEdgeFuel sizes edge_link fuel i st = some st2 → PresDG st st2 := by
  intro fuel
  induction fuel with
  | zero => intro i st st2 h; exact Option.noConfusion h
  | succ fuel ih =>
    intro i st st2 h
    rw [addDGEdgeFuel] at h
    exact dgInner_pres sizes edge_link _ ih (dgSlots edge_link) i st st2 h

/-- A successful `get?` is inside the list. -/
lemma lt_length_of_get?_eq_some {α : Type} {l : List α} {k : Nat} {x : α}
    (h : l.get? k = some x) : k < l.length := by
  by_contra hk
  rw [List.get?_eq_none.mpr (Nat.le_of_not_lt hk)] at h
  exact Option.noConfusion h

/-- The `Nctl` write changes no design group. -/
lemma dgOf_dgSetNctl (st : List (RawEdge R)) (i : Nat) (ei : RawEdge R)
    (iedge : Nat) (sz : Nat × Nat) (h : st.get? i = some ei) (e : Nat) :
    dgOf (dgSetNctl st i ei iedge sz) e = dgOf st e := by
  unfold dgOf dgSetNctl
  by_cases he : i = e
  · subst he
    rw [getD_set_self _ _ _ _ (lt_length_of_get?_eq_some h),
      getD_of_get?_eq_some re0 h]
  · rw [getD_set_ne _ _ _ _ _ he]

/-- The group assignment writes the root's group at `oe`. -/
lemma dgOf_dgAssign_self (st1 : List (RawEdge R)) (i oe : Nat)
    (eo : RawEdge R) (h : st1.get? oe = some eo) :
    dgOf (dgAssign st1 i oe eo) oe = dgOf st1 i := by
  unfold dgOf dgAssign
  rw [getD_set_self _ _ _ _ (lt_length_of_get?_eq_some h)]

/-- The group assignment changes no other edge. -/
lemma dgOf_dgAssign_ne (st1 : List (RawEdge R)) (i oe : Nat)
    (eo : RawEdge R) (e : Nat) (h : oe ≠ e) :
    dgOf (dgAssign st1 i oe eo) e = dgOf st1 e := by
  unfold dgOf dgAssign
  rw [getD_set_ne _ _ _ _ _ h]

/-- `PresDG` keeps the blocking predicate pointwise unchanged. -/
lemma blockedDG_iff_of_pres {st st2 : List (RawEdge R)}
    (hp : PresDG st st2) (e : Nat) :
    blockedDG st2 e ↔ blockedDG st e := by
  obtain ⟨-, hf⟩ := hp
  obtain ⟨h1, h2, -, -⟩ := hf e
  unfold blockedDG
  rw [h1, h2]

/-- Reachability is stable under pointwise-equivalent blocking. -/
lemma reachDG_congr {edge_link : List (List Nat)} {b1 b2 : Nat → Prop}
    (hb : ∀ e, b1 e ↔ b2 e) {r x : Nat}
    (h : ReachDG edge_link b1 r x) : ReachDG edge_link b2 r x := by
  induction h with
  | base => exact ReachDG.base
  | step e o he hcond hadj ih =>
    refine ReachDG.step e o ih ?_ hadj
    rcases hcond with rfl | hnb
    · exact Or.inl rfl
    · exact Or.inr (fun hb2 => hnb ((hb e).mpr hb2))

/-- Anything reachable from an unblocked edge that is itself reachable
from the root is reachable from the root. -/
lemma reachDG_through {edge_link : List (List Nat)} {b : Nat → Prop}
    {r o : Nat} (hro : ReachDG edge_link b r o) (hnb : o = r ∨ ¬ b o) :
    ∀ {x}, ReachDG edge_link b o x → ReachDG edge_link b r x := by
  intro x h
  induction h with
  | base => exact hro
  | step e y he hcond hadj ih =>
    refine ReachDG.step e y ih ?_ hadj
    rcases hcond with rfl | hnb2
    · rcases hnb with rfl | hnbo
      · exact Or.inl rfl
      · exact Or.inr hnbo
    · exact Or.inr hnb2

/-- Any design group changed by `dgInner` belongs to the opposite-edge
closure of the root, where recursion is confined to edges with distinct
endpoint nodes; provided the recursive call enjoys the same property. -/
lemma dgInner_reach (sizes : List (Nat × Nat)) (edge_link : List (List Nat))
    (recurse : Nat → List (RawEdge R) → Option (List (RawEdge R)))
    (hrecP : ∀ oe st st2, recurse oe st = some st2 → PresDG st st2)
    (hrecR : ∀ oe st st2, recurse oe st = some st2 →
      ∀ e, dgOf st2 e ≠ dgOf st e →
        ReachDG edge_link (blockedDG st) oe e) :
    ∀ (slots : List (Nat × Nat)) (i : Nat) (st st2 : List (RawEdge R)),
    dgInner sizes edge_link recurse slots i st = some st2 →
    ∀ e, dgOf st2 e ≠ dgOf st e →
      ReachDG edge_link (blockedDG st) i e := by
  intro slots
  induction slots with
  | nil =>
    intro i st st2 h e hne
    simp only [dgInner] at h
    cases h
    exact absurd rfl hne
  | cons slot slots ihs =>
    obtain ⟨isurf, iedge⟩ := slot
    intro i st st2 h e hne
    rw [dgInner] at h
    split at h
    · exact Option.noConfusion h
    · rename_i en hen
      split at h
      · rename_i heni
        subst heni
        split at h
        · rename_i sz ei hsz hst
          have hp1 := presDG_dgSetNctl st en ei iedge sz hst
          have hdg1 := dgOf_dgSetNctl st en ei iedge sz hst
          split at h
          · exact Option.noConfusion h
          · rename_i oe hoe
            have hadj : AdjDG edge_link en oe := ⟨isurf, iedge, hen, hoe⟩
            have hreach_oe : ReachDG edge_link (blockedDG st) en oe :=
              ReachDG.step en oe ReachDG.base (Or.inl rfl) hadj
            split at h
            · exact Option.noConfusion h
            · rename_i eo heo
              split at h
              · rename_i hdgm1
                have hp2 := presDG_dgAssign (dgSetNctl st en ei iedge sz)
                  en oe eo heo hdgm1
                have hp12 := PresDG_trans hp1 hp2
                have hdg2ne : ∀ x, oe ≠ x →
                    dgOf (dgAssign (dgSetNctl st en ei iedge sz) en oe eo) x =
                      dgOf st x := by
                  intro x hx
                  rw [dgOf_dgAssign_ne _ _ _ _ _ hx, hdg1]
                split at h
                · rename_i hneq
                  have hblocked_oe : ¬ blockedDG st oe := by
                    intro hb
                    have hb1 : blockedDG (dgSetNctl st en ei iedge sz) oe :=
                      (blockedDG_iff_of_pres hp1 oe).mpr hb
                    unfold blockedDG at hb1
                    rw [getD_of_get?_eq_some re0 heo] at hb1
                    exact hneq hb1
                  split at h
                  · exact Option.noConfusion h
                  · rename_i st3 hst3
                    have hp3 := hrecP oe _ _ hst3
                    have hp123 := PresDG_trans hp12 hp3
                    by_cases hc1 : dgOf st2 e = dgOf st3 e
                    · by_cases hc2 : dgOf st3 e =
                          dgOf (dgAssign (dgSetNctl st en ei iedge sz)
                            en oe eo) e
                      · by_cases hc3 : oe = e
                        · subst hc3
                          exact hreach_oe
                        · exact absurd
                            (hc1.trans (hc2.trans (hdg2ne e hc3))) hne
                      · have hr := hrecR oe _ _ hst3 e hc2
                        have hr2 : ReachDG edge_link (blockedDG st) oe e :=
                          reachDG_congr (blockedDG_iff_of_pres hp12) hr
                        exact reachDG_through hreach_oe
                          (Or.inr hblocked_oe) hr2
                    · have hr := ihs en st3 st2 h e hc1
                      exact reachDG_congr (blockedDG_iff_of_pres hp123) hr
                · rename_i hneq
                  by_cases hc1 : dgOf st2 e =
                      dgOf (dgAssign (dgSetNctl st en ei iedge sz) en oe eo) e
                  · by_cases hc3 : oe = e
                    · subst hc3
                      exact hreach_oe
                    · exact absurd (hc1.trans (hdg2ne e hc3)) hne
                  · have hr := ihs en _ st2 h e hc1
                    exact reachDG_congr (blockedDG_iff_of_pres hp12) hr
              · rename_i hdgm1
                by_cases hc1 : dgOf st2 e =
                    dgOf (dgSetNctl st en ei iedge sz) e
                · exact absurd (hc1.trans (hdg1 e)) hne
                · have hr := ihs en _ st2 h e hc1
                  exact reachDG_congr (blockedDG_iff_of_pres hp1) hr
        · exact Option.noConfusion h
      · exact ihs i st st2 h e hne

/-- Any design group changed by `addDGEdgeFuel` belongs to the
opposite-edge closure of the root. -/
lemma addDGEdgeFuel_reach (sizes : List (Nat × Nat))
    (edge_link : List (List Nat)) :
    ∀ (fuel i : Nat) (st st2 : List (RawEdge R)),
    addDGEdgeFuel sizes edge_link fuel i st = some st2 →
    ∀ e, dgOf st2 e ≠ dgOf st e →
      ReachDG edge_link (blockedDG st) i e := by
  intro fuel
  induction fuel with
  | zero => intro i st st2 h; exact Option.noConfusion h
  | succ fuel ih =>
    intro i st st2 h
    rw [addDGEdgeFuel] at h
    exact dgInner_reach sizes edge_link _
      (addDGEdgeFuel_pres sizes edge_link fuel) ih
      (dgSlots edge_link) i st st2 h

/-- `PresDG` keeps a non-`-1` design group intact. -/
lemma dgOf_ne_neg_one_of_pres {st st2 : List (RawEdge R)}
    (hp : PresDG st st2) {e : Nat} (h : dgOf st e ≠ -1) :
    dgOf st2 e ≠ -1 := by
  obtain ⟨-, hf⟩ := hp
  obtain ⟨-, -, -, h4⟩ := hf e
  unfold dgOf at *
  rw [h4 h]
  exact h

/-- After `dgInner` visits a slot holding the root edge `i` (whose group
is assigned), the opposite edge of that slot has an assigned group. -/
lemma dgInner_assign (sizes : List (Nat × Nat)) (edge_link : List (List Nat))
    (recurse : Nat → List (RawEdge R) → Option (List (RawEdge R)))
    (hrecP : ∀ oe st st2, recurse oe st = some st2 → PresDG st st2) :
    ∀ (slots : List (Nat × Nat)) (i : Nat) (st st2 : List (RawEdge R)),
    dgInner sizes edge_link recurse slots i st = some st2 →
    dgOf st i ≠ -1 →
    ∀ isurf iedge oe, (isurf, iedge) ∈ slots →
      (edge_link.get? isurf).bind (fun row => row.get? iedge) = some i →
      (edge_link.get? isurf).bind (fun row => row.get? (flipEdge iedge)) =
        some oe →
      dgOf st2 oe ≠ -1 := by
  intro slots
  induction slots with
  | nil =>
    intro i st st2 h hroot isurf iedge oe hmem
    exact absurd hmem (by simp)
  | cons slot slots ihs =>
    obtain ⟨isurf0, iedge0⟩ := slot
    intro i st st2 h hroot isurf iedge oe hmem hlook hflip
    rcases List.mem_cons.mp hmem with heq | hmem2
    · -- the target slot is the head slot
      obtain ⟨rfl, rfl⟩ : isurf0 = isurf ∧ iedge0 = iedge := by
        injection heq with a b; exact ⟨a.symm, b.symm⟩
      rw [dgInner] at h
      split at h
      · rename_i hen
        rw [hlook] at hen
        exact Option.noConfusion hen
      · rename_i en hen
        rw [hlook] at hen
        obtain rfl : en = i := by injection hen with a; exact a.symm
        rw [if_pos rfl] at h
        split at h
        · rename_i sz ei hsz hst
          split at h
          · rename_i hoe
            rw [hflip] at hoe
            exact Option.noConfusion hoe
          · rename_i oe2 hoe
            rw [hflip] at hoe
            obtain rfl : oe2 = oe := by injection hoe with a; exact a.symm
            split at h
            · exact Option.noConfusion h
            · rename_i eo heo
              have hdg1 := dgOf_dgSetNctl st en ei iedge0 sz hst
              split at h
              · rename_i hdgm1
                have hoe_assigned :
                    dgOf (dgAssign (dgSetNctl st en ei iedge0 sz) en oe2 eo)
                      oe2 ≠ -1 := by
                  rw [dgOf_dgAssign_self _ _ _ _ heo, hdg1]
                  exact hroot
                split at h
                · rename_i hneq
                  split at h
                  · exact Option.noConfusion h
                  · rename_i st3 hst3
                    have hp3 := hrecP oe2 _ _ hst3
                    have hp4 := dgInner_pres sizes edge_link recurse hrecP
                      slots en _ _ h
                    exact dgOf_ne_neg_one_of_pres (PresDG_trans hp3 hp4)
                      hoe_assigned
                · rename_i hneq
                  have hp4 := dgInner_pres sizes edge_link recurse hrecP
                    slots en _ _ h
                  exact dgOf_ne_neg_one_of_pres hp4 hoe_assigned
              · rename_i hdgm1
                have hoe_assigned :
                    dgOf (dgSetNctl st en ei iedge0 sz) oe2 ≠ -1 := by
                  unfold dgOf
                  rw [getD_of_get?_eq_some re0 heo]
                  exact hdgm1
                have hp4 := dgInner_pres sizes edge_link recurse hrecP
                  slots en _ _ h
                exact dgOf_ne_neg_one_of_pres hp4 hoe_assigned
        · exact Option.noConfusion h
    · -- the target slot is in the tail; step the head and recurse
      rw [dgInner] at h
      split at h
      · exact Option.noConfusion h
      · rename_i en hen
        split at h
        · rename_i heni
          subst heni
          split at h
          · rename_i sz ei hsz hst
            have hp1 := presDG_dgSetNctl st en ei iedge0 sz hst
            split at h
            · exact Option.noConfusion h
            · rename_i oe2 hoe2
              split at h
              · exact Option.noConfusion h
              · rename_i eo heo
                split at h
                · rename_i hdgm1
                  have hp2 := presDG_dgAssign (dgSetNctl st en ei iedge0 sz)
                    en oe2 eo heo hdgm1
                  split at h
                  · rename_i hneq
                    split at h
                    · exact Option.noConfusion h
                    · rename_i st3 hst3
                      have hp3 := hrecP oe2 _ _ hst3
                      have hroot3 := dgOf_ne_neg_one_of_pres
                        (PresDG_trans (PresDG_trans hp1 hp2) hp3) hroot
                      exact ihs en st3 st2 h hroot3 isurf iedge oe hmem2
                        hlook hflip
                  · rename_i hneq
                    have hroot2 := dgOf_ne_neg_one_of_pres
                      (PresDG_trans hp1 hp2) hroot
                    exact ihs en _ st2 h hroot2 isurf iedge oe hmem2
                      hlook hflip
                · rename_i hdgm1
                  have hroot1 := dgOf_ne_neg_one_of_pres hp1 hroot
                  exact ihs en _ st2 h hroot1 isurf iedge oe hmem2
                    hlook hflip
          · exact Option.noConfusion h
        · exact ihs i st st2 h hroot isurf iedge oe hmem2 hlook hflip

/-- Every valid surface slot is in the flood-fill worklist. -/
lemma mem_dgSlots {edge_link : List (List Nat)} {isurf iedge : Nat}
    (h1 : isurf < edge_link.length) (h2 : iedge < 4) :
    (isurf, iedge) ∈ dgSlots edge_link := by
  unfold dgSlots
  rw [List.mem_flatMap]
  exact ⟨isurf, List.mem_range.mpr h1,
    List.mem_map.mpr ⟨iedge, List.mem_range.mpr h2, rfl⟩⟩

/-- `addDGEdgeFuel` assigns a group to the opposite edge of every slot
holding the root. -/
lemma addDGEdgeFuel_assign (sizes : List (Nat × Nat))
    (edge_link : List (List Nat)) (fuel i : Nat)
    (st st2 : List (RawEdge R))
    (h : addDGEdgeFuel sizes edge_link fuel i st = some st2)
    (hroot : dgOf st i ≠ -1) (isurf iedge oe : Nat)
    (h1 : isurf < edge_link.length) (h2 : iedge < 4)
    (hlook : (edge_link.get? isurf).bind (fun row => row.get? iedge) =
      some i)
    (hflip : (edge_link.get? isurf).bind
      (fun row => row.get? (flipEdge iedge)) = some oe) :
    dgOf st2 oe ≠ -1 := by
  cases fuel with
  | zero => exact Option.noConfusion h
  | succ fuel =>
    rw [addDGEdgeFuel] at h
    exact dgInner_assign sizes edge_link _
      (addDGEdgeFuel_pres sizes edge_link fuel) (dgSlots edge_link) i st st2
      h hroot isurf iedge oe (mem_dgSlots h1 h2) hlook hflip

/-- The design-group main loop: preservation, counter bound, and every
scanned edge ends with an assigned group. -/
lemma dgPhaseFold_spec (sizes : List (Nat × Nat))
    (edge_link : List (List Nat)) :
    ∀ (L : List Nat) (cnt : Int) (st : List (RawEdge R))
      (r : Int × List (RawEdge R)),
    L.foldlM (dgPhaseStep sizes edge_link) (cnt, st) = some r →
    -1 ≤ cnt →
    PresDG st r.2 ∧ -1 ≤ r.1 ∧ ∀ e ∈ L, dgOf r.2 e ≠ -1 := by
  intro L
  induction L with
  | nil =>
    intro cnt st r h hcnt
    simp only [List.foldlM_nil] at h
    cases h
    exact ⟨PresDG_refl st, hcnt, by simp⟩
  | cons i L ihl =>
    intro cnt st r h hcnt
    rw [List.foldlM_cons] at h
    cases hstep : dgPhaseStep sizes edge_link (cnt, st) i with
    | none => rw [hstep] at h; exact Option.noConfusion h
    | some s1 =>
      rw [hstep] at h
      simp only [Option.bind_eq_bind, Option.some_bind] at h
      unfold dgPhaseStep at hstep
      split at hstep
      · exact Option.noConfusion hstep
      · rename_i e hget
        split at hstep
        · rename_i hdgm1
          split at hstep
          · exact Option.noConfusion hstep
          · rename_i el2 hel2
            cases hstep
            have hpset := presDG_set_dg st i e hget hdgm1 (cnt + 1)
            have hpfill := addDGEdgeFuel_pres sizes edge_link _ i _ _ hel2
            obtain ⟨hpr, hcr, hLr⟩ := ihl (cnt + 1) el2 r h (by omega)
            refine ⟨PresDG_trans (PresDG_trans hpset hpfill) hpr, hcr, ?_⟩
            intro x hx
            rcases List.mem_cons.mp hx with rfl | hx2
            · have hseti : dgOf (st.set x { e with dg := cnt + 1 }) x =
                  cnt + 1 := by
                unfold dgOf
                rw [getD_set_self _ _ _ _ (lt_length_of_get?_eq_some hget)]
              have hx1 : dgOf el2 x ≠ -1 :=
                dgOf_ne_neg_one_of_pres hpfill (by rw [hseti]; omega)
              exact dgOf_ne_neg_one_of_pres hpr hx1
            · exact hLr x hx2
        · rename_i hdgm1
          cases hstep
          obtain ⟨hpr, hcr, hLr⟩ := ihl cnt st r h hcnt
          refine ⟨hpr, hcr, ?_⟩
          intro x hx
          rcases List.mem_cons.mp hx with rfl | hx2
          · have hsti : dgOf st x ≠ -1 := by
              unfold dgOf
              rw [getD_of_get?_eq_some re0 hget]
              exact hdgm1
            exact dgOf_ne_neg_one_of_pres hpr hsti
          · exact hLr x hx2

/-- After the design-group phase every edge of the list has an assigned
group, and nothing else of the edge data changed. -/
lemma designGroupPhase_spec (sizes : List (Nat × Nat))
    (edge_link : List (List Nat)) (el0 elr : List (RawEdge R))
    (h : designGroupPhase sizes edge_link el0 = some elr) :
    PresDG el0 elr ∧ ∀ e, e < el0.length → dgOf elr e ≠ -1 := by
  unfold designGroupPhase at h
  split at h
  · exact Option.noConfusion h
  · rename_i st hfold
    cases h
    obtain ⟨hp, -, hL⟩ := dgPhaseFold_spec sizes edge_link
      (List.range el0.length) (-1) el0 st hfold (le_refl _)
    exact ⟨hp, fun e he => hL e (List.mem_range.mpr he)⟩

/-- C3, counterexample.  Edge 1 of the concrete input has both
endpoints at node 2 but its midpoint `(50,0,0)` is far outside
`node_tol = 1` of that node, so by the claim's own definition (and by
`classifyEdges`, which marks it `degen = 0`) it is *not* degenerate.
It is opposite-adjacent to edge 2 through surface 1 (slots 0 and 3),
and it receives group 0; yet the flood fill does not recurse past it:
edge 2 ends in the distinct fresh group 1.  The recursion guard of
`addDGEdge` (source line 896) only compares the endpoint node ids and
never consults the midpoint, so propagation also stops at closed,
non-degenerate edges, refuting the claim that it recurses past every
non-degenerate edge. -/
theorem designGroup_stops_at_closed_nondegenerate_edge :
    ((designGroupPhase sizesC3 elinkC3 rawC3).bind
        (classifyEdges 1 nodesC3)).map
      (fun ces => ((ces.getD 1 edge0).n1, (ces.getD 1 edge0).n2,
        (ces.getD 1 edge0).degen, (ces.getD 1 edge0).dg,
        (ces.getD 2 edge0).dg)) = some (2, 2, 0, 0, 1) ∧
    AdjDG elinkC3 1 2 := by
  constructor
  · decide
  · exact ⟨1, 0, by decide, by decide⟩

/-- C3, amended.  During design-group assignment the flood fill is
blocked exactly at edges whose two endpoints map to the same node,
whether or not the midpoint lies within `node_tol` (the degeneracy
test's midpoint part is never consulted): (1) any edge whose group is
changed by an `addDGEdge` call from root `i` lies in the opposite-edge
closure of `i` whose interior edges all have distinct endpoint nodes;
(2) the group id is still assigned to every opposite edge of the root,
including ones with equal endpoints; (3) the main loop leaves no edge
unassigned. -/
theorem addDGEdge_blocks_at_equal_endpoint_edges {R : Type}
    [LinearOrderedCommRing R] :
    (∀ (sizes : List (Nat × Nat)) (edge_link : List (List Nat))
        (fuel i : Nat) (st st2 : List (RawEdge R)),
      addDGEdge sizes edge_link fuel i st = some st2 →
      ∀ e, dgOf st2 e ≠ dgOf st e →
        ReachDG edge_link (blockedDG st) i e) ∧
    (∀ (sizes : List (Nat × Nat)) (edge_link : List (List Nat))
        (fuel i : Nat) (st st2 : List (RawEdge R)),
      addDGEdge sizes edge_link fuel i st = some st2 →
      dgOf st i ≠ -1 →
      ∀ isurf iedge oe, isurf < edge_link.length → iedge < 4 →
        (edge_link.get? isurf).bind (fun row => row.get? iedge) = some i →
        (edge_link.get? isurf).bind
          (fun row => row.get? (flipEdge iedge)) = some oe →
        dgOf st2 oe ≠ -1) ∧
    (∀ (sizes : List (Nat × Nat)) (edge_link : List (List Nat))
        (el0 elr : List (RawEdge R)),
      designGroupPhase sizes edge_link el0 = some elr →
      ∀ e, e < el0.length → dgOf elr e ≠ -1) := by
  refine ⟨?_, ?_, ?_⟩
  · intro sizes edge_link fuel i st st2 h e hne
    exact addDGEdgeFuel_reach sizes edge_link fuel i st st2 h e hne
  · intro sizes edge_link fuel i st st2 h hroot isurf iedge oe h1 h2 hlook
      hflip
    exact addDGEdgeFuel_assign sizes edge_link fuel i st st2 h hroot
      isurf iedge oe h1 h2 hlook hflip
  · intro sizes edge_link el0 elr h e he
    exact (designGroupPhase_spec sizes edge_link el0 elr h).2 e he

/-- C3, witness for the amended theorem: on the concrete input the
phase succeeds and edge 1 (the closed edge) ends with an assigned
group. -/
theorem addDGEdge_blocks_at_equal_endpoint_edges_witness :
    designGroupPhase sizesC3 elinkC3 rawC3 = some elrC3 ∧
    1 < rawC3.length ∧ dgOf elrC3 1 ≠ -1 :=
  ⟨by decide, by decide,
    (@addDGEdge_blocks_at_equal_endpoint_edges ℤ _).2.2 sizesC3 elinkC3
      rawC3 elrC3 (by decide) 1 (by decide)⟩

end DGProofs

section GNProofs

/-- Replacing one element shifts a mapped sum by the difference of the
images (stated without subtraction). -/
lemma sum_map_set_nat {α : Type} (f : α → Nat) (d : α) :
    ∀ (g : List α) (k : Nat) (x : α), k < g.length →
    ((g.set k x).map f).sum + f (g.getD k d) = (g.map f).sum + f x := by
  intro g
  induction g with
  | nil => intro k x h; simp at h
  | cons a g ih =>
    intro k x h
    cases k with
    | zero => simp [List.set]; omega
    | succ k =>
      have hk : k < g.length := by simpa using h
      have := ih k x hk
      simp only [List.set, List.map_cons, List.sum_cons, List.getD_cons_succ]
      omega

/-- Occurrences of a key in a one-element list. -/
lemma count_pair_singleton (t t0 : Nat × Nat × Nat) :
    List.count t [t0] = if t = t0 then 1 else 0 := by
  rcases eq_or_ne t t0 with h | h
  · subst h; simp
  · simp [h, Ne.symm h]

/-- Appending a fresh singleton list adds one occurrence of its key. -/
lemma gnCount_append_singleton (g : List (List (Nat × Nat × Nat)))
    (t t0 : Nat × Nat × Nat) :
    gnCount t (g ++ [[t0]]) = gnCount t g + (if t = t0 then 1 else 0) := by
  unfold gnCount
  rw [List.map_append, List.sum_append]
  simp only [List.map_cons, List.map_nil, List.sum_cons, List.sum_nil]
  rw [count_pair_singleton]
  omega

/-- Appending to one stored list adds one occurrence of its key. -/
lemma gnCount_set_append (g : List (List (Nat × Nat × Nat))) (k : Nat)
    (hk : k < g.length) (t t0 : Nat × Nat × Nat) :
    gnCount t (g.set k (g.getD k [] ++ [t0])) =
      gnCount t g + (if t = t0 then 1 else 0) := by
  have h := sum_map_set_nat (fun loc => loc.count t) [] g k
    (g.getD k [] ++ [t0]) hk
  simp only at h
  unfold gnCount
  have hx : List.count t (g.getD k [] ++ [t0]) =
      List.count t (g.getD k []) + (if t = t0 then 1 else 0) := by
    rw [List.count_append, count_pair_singleton]
  rw [hx] at h
  omega

/-- Appending a fresh singleton list grows the total size by one. -/
lemma gnTotal_append_singleton (g : List (List (Nat × Nat × Nat)))
    (t0 : Nat × Nat × Nat) :
    gnTotal (g ++ [[t0]]) = gnTotal g + 1 := by
  unfold gnTotal
  rw [List.map_append, List.sum_append]
  simp

/-- Appending to one stored list grows the total size by one. -/
lemma gnTotal_set_append (g : List (List (Nat × Nat × Nat))) (k : Nat)
    (hk : k < g.length) (t0 : Nat × Nat × Nat) :
    gnTotal (g.set k (g.getD k [] ++ [t0])) = gnTotal g + 1 := by
  have h := sum_map_set_nat List.length [] g k (g.getD k [] ++ [t0]) hk
  unfold gnTotal
  simp only [List.length_append, List.length_cons, List.length_nil] at h
  omega

/-- Every successful fill-loop cell appends its own `(patch, i, j)`
location exactly once, to exactly one list. -/
lemma gnCell_spec (node_link edge_link : List (List Nat))
    (edge_dir : List (List Int)) (edge_index : List (List Nat))
    (surface_list : List Nat) (nNode ii N M : Nat)
    (st st2 : Nat × List (List (Nat × Nat × Nat)) × List (List Int))
    (c : Nat × Nat)
    (h : gnCell node_link edge_link edge_dir edge_index surface_list
      nNode ii N M st c = some st2) :
    surface_list.get? ii = some (surface_list.getD ii 0) ∧
    (∀ t, gnCount t st2.2.1 = gnCount t st.2.1 +
      (if t = (surface_list.getD ii 0, c.1, c.2) then 1 else 0)) ∧
    gnTotal st2.2.1 = gnTotal st.2.1 + 1 := by
  rw [gnCell] at h
  split at h
  · exact Option.noConfusion h
  · rename_i isurf hsl
    have hsl2 : surface_list.getD ii 0 = isurf := getD_of_get?_eq_some 0 hsl
    subst hsl2
    refine ⟨hsl, ?_⟩
    split at h
    · cases h
      exact ⟨fun t => gnCount_append_singleton _ _ _,
        gnTotal_append_singleton _ _⟩
    · split at h
      · rename_i el d hel hd
        split at h
        · exact Option.noConfusion h
        · rename_i cur hcur
          split at h
          · rename_i hlt
            cases h
            exact ⟨fun t => gnCount_set_append _ _ hlt _ _,
              gnTotal_set_append _ _ hlt _⟩
          · exact Option.noConfusion h
      · exact Option.noConfusion h
    · split at h
      · exact Option.noConfusion h
      · rename_i cn hcn
        split at h
        · rename_i hlt
          cases h
          exact ⟨fun t => gnCount_set_append _ _ hlt.2 _ _,
            gnTotal_set_append _ _ hlt.2 _⟩
        · exact Option.noConfusion h

/-- Folding the fill loop over a cell list adds each cell's key once. -/
lemma gnCells_fold (node_link edge_link : List (List Nat))
    (edge_dir : List (List Int)) (edge_index : List (List Nat))
    (surface_list : List Nat) (nNode ii N M : Nat) :
    ∀ (cells : List (Nat × Nat))
      (st st2 : Nat × List (List (Nat × Nat × Nat)) × List (List Int)),
    cells.foldlM (gnCell node_link edge_link edge_dir edge_index
      surface_list nNode ii N M) st = some st2 →
    (∀ t, gnCount t st2.2.1 = gnCount t st.2.1 +
      (cells.map (fun c => (surface_list.getD ii 0, c.1, c.2))).count t) ∧
    gnTotal st2.2.1 = gnTotal st.2.1 + cells.length := by
  intro cells
  induction cells with
  | nil =>
    intro st st2 h
    simp only [List.foldlM_nil] at h
    cases h
    simp
  | cons c cells ih =>
    intro st st2 h
    rw [List.foldlM_cons] at h
    cases hstep : gnCell node_link edge_link edge_dir edge_index
        surface_list nNode ii N M st c with
    | none => rw [hstep] at h; exact Option.noConfusion h
    | some st1 =>
      rw [hstep] at h
      simp only [Option.bind_eq_bind, Option.some_bind] at h
      obtain ⟨-, hcnt1, htot1⟩ := gnCell_spec node_link edge_link edge_dir
        edge_index surface_list nNode ii N M st st1 c hstep
      obtain ⟨hcnt2, htot2⟩ := ih st1 st2 h
      constructor
      · intro t
        rw [hcnt2 t, hcnt1 t, List.map_cons, List.count_cons]
        by_cases ht : t = (surface_list.getD ii 0, c.1, c.2)
        · rw [if_pos ht, if_pos (by rw [ht]; exact beq_self_eq_true _)]
          omega
        · rw [if_neg ht, if_neg ?_]
          · omega
          · simp only [beq_iff_eq]
            exact fun hx => ht hx.symm
      · rw [htot2, htot1]
        simp only [List.length_cons]
        omega

/-- A grid has `N * M` cells. -/
lemma gridCells_length (N M : Nat) : (gridCells N M).length = N * M := by
  unfold gridCells
  induction N with
  | zero => simp
  | succ n ih =>
    rw [List.range_succ, List.flatMap_append]
    simp only [List.length_append, ih]
    simp [Nat.succ_mul]

/-- Folding the fill loop over the surfaces adds every key once. -/
lemma gnSurfs_fold (node_link edge_link : List (List Nat))
    (edge_dir : List (List Int)) (edge_index : List (List Nat))
    (surface_list : List Nat) (nNode : Nat) (sizes : List (Nat × Nat)) :
    ∀ (L : List Nat)
      (st st2 : Nat × List (List (Nat × Nat × Nat)) × List (List (List Int))),
    L.foldlM (gnSurfStep node_link edge_link edge_dir edge_index
      surface_list nNode sizes) st = some st2 →
    (∀ t, gnCount t st2.2.1 = gnCount t st.2.1 +
      (L.flatMap (fun ii =>
        (gridCells (sizes.getD ii (0, 0)).1 (sizes.getD ii (0, 0)).2).map
          (fun c => (surface_list.getD ii 0, c.1, c.2)))).count t) ∧
    gnTotal st2.2.1 = gnTotal st.2.1 +
      (L.map (fun ii =>
        (sizes.getD ii (0, 0)).1 * (sizes.getD ii (0, 0)).2)).sum := by
  intro L
  induction L with
  | nil =>
    intro st st2 h
    simp only [List.foldlM_nil] at h
    cases h
    simp
  | cons ii L ih =>
    intro st st2 h
    rw [List.foldlM_cons] at h
    cases hstep : gnSurfStep node_link edge_link edge_dir edge_index
        surface_list nNode sizes st ii with
    | none => rw [hstep] at h; exact Option.noConfusion h
    | some st1 =>
      rw [hstep] at h
      simp only [Option.bind_eq_bind, Option.some_bind] at h
      rw [gnSurfStep] at hstep
      split at hstep
      · exact Option.noConfusion hstep
      · rename_i sz hsz
        split at hstep
        · exact Option.noConfusion hstep
        · rename_i r hr
          cases hstep
          obtain ⟨hcnt1, htot1⟩ := gnCells_fold node_link edge_link
            edge_dir edge_index surface_list nNode ii sz.1 sz.2
            (gridCells sz.1 sz.2) _ _ hr
          obtain ⟨hcnt2, htot2⟩ := ih _ st2 h
          dsimp only at hcnt1 htot1 hcnt2 htot2
          have hszD : sizes.getD ii (0, 0) = sz := getD_of_get?_eq_some _ hsz
          have hcells_len : (gridCells sz.1 sz.2).length = sz.1 * sz.2 :=
            gridCells_length sz.1 sz.2
          constructor
          · intro t
            rw [List.flatMap_cons, List.count_append, hszD]
            rw [hcnt2 t, hcnt1 t]
            omega
          · rw [List.map_cons, List.sum_cons, hszD]
            rw [htot2, htot1, hcells_len]
            omega

/-- Sum of the one-point indicator over an initial segment. -/
lemma sum_indicator_range (n k : Nat) :
    ((List.range n).map (fun x => if x = k then 1 else 0)).sum =
      if k < n then 1 else 0 := by
  induction n with
  | zero => simp
  | succ n ih =>
    rw [List.range_succ, List.map_append, List.sum_append, ih]
    rcases Nat.lt_trichotomy k n with h | h | h
    · rw [if_pos h, if_pos (by omega), List.map_cons]
      rw [if_neg (by omega)]
      simp
    · subst h
      rw [if_neg (by omega), if_pos (by omega)]
      simp
    · rw [if_neg (by omega), if_neg (by omega)]
      simp
      omega

/-- Counting in a `flatMap` over an initial segment when exactly one
block can contain the key. -/
lemma count_map_inj {α β : Type} [BEq α] [LawfulBEq α] [BEq β] [LawfulBEq β]
    (l : List α) (f : α → β) (hf : Function.Injective f) (x : α) :
    (l.map f).count (f x) = l.count x := by
  induction l with
  | nil => simp
  | cons a l ih =>
    rw [List.map_cons, List.count_cons, List.count_cons, ih]
    by_cases h : a = x
    · subst h
      simp
    · have h2 : f a ≠ f x := fun hc => h (hf hc)
      simp [h, h2]

/-- One occurrence in a duplicate-free list, for any lawful `BEq`. -/
lemma count_eq_one_of_mem_nodup {α : Type} [BEq α] [LawfulBEq α] {a : α}
    {l : List α} (hnd : l.Nodup) (ha : a ∈ l) : l.count a = 1 := by
  induction l with
  | nil => simp at ha
  | cons b l ih =>
    rw [List.count_cons]
    have hd := List.nodup_cons.mp hnd
    rcases List.mem_cons.mp ha with h | h
    · subst h
      rw [List.count_eq_zero.mpr hd.1]
      simp
    · rw [ih hd.2 h]
      have hne : b ≠ a := fun hc => hd.1 (hc ▸ h)
      simp [hne]

lemma count_flatMap_range_one {β : Type} [BEq β] [LawfulBEq β] (n : Nat)
    (f : Nat → List β) (t : β) (k : Nat) (hk : k < n)
    (hother : ∀ x, x < n → x ≠ k → t ∉ f x)
    (hone : (f k).count t = 1) :
    ((List.range n).flatMap f).count t = 1 := by
  rw [List.count_flatMap]
  have hcong : ∀ x ∈ List.range n, (List.count t ∘ f) x =
      (fun x => if x = k then 1 else 0) x := by
    intro x hx
    by_cases hxk : x = k
    · subst hxk
      simpa using hone
    · simp only [Function.comp]
      rw [if_neg hxk]
      exact List.count_eq_zero.mpr
        (hother x (List.mem_range.mp hx) hxk)
  rw [List.map_congr_left hcong, sum_indicator_range, if_pos hk]

/-- Each in-range cell occurs exactly once in the cell sweep. -/
lemma gridCells_count (N M i j : Nat) (hi : i < N) (hj : j < M) :
    (gridCells N M).count (i, j) = 1 := by
  unfold gridCells
  refine count_flatMap_range_one N _ (i, j) i hi ?_ ?_
  · intro x hx hxi hmem
    obtain ⟨j2, -, hj2⟩ := List.mem_map.mp hmem
    exact hxi (congrArg Prod.fst hj2)
  · have hinj : Function.Injective (fun j2 : Nat => (i, j2)) := by
      intro a b hab
      exact congrArg Prod.snd hab
    rw [count_map_inj _ _ hinj]
    exact count_eq_one_of_mem_nodup (List.nodup_range M) (List.mem_range.mpr hj)

/-- With distinct surfaces, each valid `(patch, i, j)` key occurs
exactly once in the key list of the fill loop. -/
lemma gnKeys_count (sizes : List (Nat × Nat)) (surface_list : List Nat)
    (hND : surface_list.Nodup) (ii i j : Nat)
    (hii : ii < surface_list.length)
    (hi : i < (sizes.getD ii (0, 0)).1) (hj : j < (sizes.getD ii (0, 0)).2) :
    (gnKeys sizes surface_list).count (surface_list.getD ii 0, i, j) = 1 := by
  unfold gnKeys
  refine count_flatMap_range_one surface_list.length _ _ ii hii ?_ ?_
  · intro x hx hxii hmem
    obtain ⟨c, -, hc⟩ := List.mem_map.mp hmem
    have hfst : surface_list.getD x 0 = surface_list.getD ii 0 :=
      congrArg (fun p => p.1) hc
    rw [List.getD_eq_getElem _ _ hx, List.getD_eq_getElem _ _ hii] at hfst
    exact hxii ((List.Nodup.getElem_inj_iff hND).mp hfst)
  · have hinj : Function.Injective
        (fun c : Nat × Nat => (surface_list.getD ii 0, c.1, c.2)) := by
      intro a b hab
      have h1 : a.1 = b.1 := congrArg (fun p => p.2.1) hab
      have h2 : a.2 = b.2 := congrArg (fun p => p.2.2) hab
      exact Prod.ext h1 h2
    exact (count_map_inj _ _ hinj (i, j)).trans (gridCells_count _ _ i j hi hj)

/-- Reading every position of a list through `getD` over its index
range reproduces the list. -/
lemma map_getD_range {α β : Type} (l : List α) (d : α) (f : α → β) :
    (List.range l.length).map (fun i => f (l.getD i d)) = l.map f := by
  induction l with
  | nil => simp
  | cons a l ih =>
    rw [List.length_cons, List.range_succ_eq_map]
    rw [List.map_cons, List.map_map]
    rw [List.map_cons]
    refine congrArg (f a :: ·) ?_
    rw [← ih]
    rfl

/-- The global index starts with all-empty location lists. -/
lemma gnCount_replicate_nil (n : Nat) (t : Nat × Nat × Nat) :
    gnCount t (List.replicate n ([] : List (Nat × Nat × Nat))) = 0 := by
  unfold gnCount
  rw [List.map_replicate]
  simp

/-- The empty global index has total size zero. -/
lemma gnTotal_replicate_nil (n : Nat) :
    gnTotal (List.replicate n ([] : List (Nat × Nat × Nat))) = 0 := by
  unfold gnTotal
  rw [List.map_replicate]
  simp

/-- C1.  `calcGlobalNumbering` partitions the grid locations: whenever
it succeeds on a duplicate-free surface list, every valid `(patch, i, j)`
location appears in exactly one global id's location list (counted with
multiplicity one), and the sizes of all location lists sum to the total
grid-cell count over the listed surfaces. -/
theorem calcGlobalNumbering_partition (sizes : List (Nat × Nat))
    (surface_list : List Nat) (node_link : List (List Nat))
    (edge_list : List edge) (edge_link : List (List Nat))
    (edge_dir : List (List Int)) (ncoef : Nat)
    (g : List (List (Nat × Nat × Nat))) (l : List (List (List Int)))
    (h : calcGlobalNumbering sizes surface_list node_link edge_list
      edge_link edge_dir = some (ncoef, g, l))
    (hND : surface_list.Nodup) :
    (∀ ii i j, ii < surface_list.length →
      i < (sizes.getD ii (0, 0)).1 → j < (sizes.getD ii (0, 0)).2 →
      gnCount (surface_list.getD ii 0, i, j) g = 1) ∧
    gnTotal g = (sizes.map (fun p => p.1 * p.2)).sum := by
  unfold calcGlobalNumbering at h
  split at h
  · rename_i hlen
    split at h
    · exact Option.noConfusion h
    · rename_i pre counter edge_index hpre
      obtain ⟨hcnt, htot⟩ := gnSurfs_fold node_link edge_link edge_dir
        edge_index surface_list (node_link.flatten.dedup.length) sizes
        (List.range surface_list.length) _ _ h
      dsimp only at hcnt htot
      constructor
      · intro ii i j hii hi hj
        rw [hcnt, gnCount_replicate_nil]
        have hkeys := gnKeys_count sizes surface_list hND ii i j hii hi hj
        unfold gnKeys at hkeys
        omega
      · rw [htot, gnTotal_replicate_nil]
        have hmap := map_getD_range sizes (0, 0) (fun p => p.1 * p.2)
        rw [← hlen] at *
        rw [hmap]
        omega
  · exact Option.noConfusion h

/-- C1, witness: the `3 × 3` single-surface topology succeeds, the
interior cell `(0,1,1)` appears in exactly one location list, and the
location-list sizes sum to the 9 grid cells. -/
theorem calcGlobalNumbering_partition_witness :
    calcGlobalNumbering gnSizesW [0] gnNodeLinkW gnEdgeListW gnEdgeLinkW
      gnEdgeDirW = some (gnResW.1, gnResW.2.1, gnResW.2.2) ∧
    gnCount (0, 1, 1) gnResW.2.1 = 1 ∧
    gnTotal gnResW.2.1 = (gnSizesW.map (fun p => p.1 * p.2)).sum := by
  have h := calcGlobalNumbering_partition gnSizesW [0] gnNodeLinkW
    gnEdgeListW gnEdgeLinkW gnEdgeDirW gnResW.1 gnResW.2.1 gnResW.2.2
    rfl (by decide)
  exact ⟨rfl, h.1 0 1 1 (by decide) (by decide) (by decide), h.2⟩

/-- Changing one position of a summed index range shifts the sum by the
difference at that position. -/
lemma sum_range_except (n k : Nat) (f g : Nat → Nat) (hk : k < n)
    (h : ∀ x, x ≠ k → f x = g x) :
    ((List.range n).map g).sum + f k = ((List.range n).map f).sum + g k := by
  induction n with
  | zero => exact absurd hk (Nat.not_lt_zero k)
  | succ n ih =>
    rw [List.range_succ, List.map_append, List.map_append, List.sum_append,
      List.sum_append]
    rcases Nat.lt_or_ge k n with hkn | hkn
    · have hih := ih hkn
      have hfg : f n = g n := h n (by omega)
      simp only [List.map_cons, List.map_nil, List.sum_cons, List.sum_nil]
      omega
    · have hkeq : k = n := by omega
      subst hkeq
      have hpre : (List.range k).map g = (List.range k).map f :=
        List.map_congr_left (fun x hx =>
          (h x (by have := List.mem_range.mp hx; omega)).symm)
      rw [hpre]
      simp only [List.map_cons, List.map_nil, List.sum_cons, List.sum_nil]
      omega

/-- Sums over an index range agree when the summands do. -/
lemma sum_range_congr (n : Nat) (f g : Nat → Nat)
    (h : ∀ x, x < n → f x = g x) :
    ((List.range n).map f).sum = ((List.range n).map g).sum := by
  rw [List.map_congr_left (fun x hx => h x (List.mem_range.mp hx))]

/-- Looking anywhere in an all-empty row table gives the empty row. -/
lemma getD_replicate_nil {α : Type} (n e : Nat) :
    (List.replicate n ([] : List α)).getD e [] = [] := by
  by_cases h : e < n
  · rw [List.getD_eq_getElem _ _ (by simpa using h)]
    exact List.getElem_replicate _ _
  · rw [List.getD_eq_default _ _ (by simpa using Nat.le_of_not_lt h)]

/-- An all-empty index table credits nothing to non-degenerate edges. -/
lemma gnNonDegenSum_replicate_nil (edge_list : List edge) (n : Nat) :
    gnNonDegenSum edge_list (List.replicate n []) = 0 := by
  unfold gnNonDegenSum
  refine List.sum_eq_zero ?_
  intro x hx
  obtain ⟨e, he, hxe⟩ := List.mem_map.mp hx
  subst hxe
  rw [getD_replicate_nil]
  split <;> rfl

/-- Overwriting a degenerate edge's row does not change the ids credited
to non-degenerate edges. -/
lemma gnNonDegenSum_set_degen (edge_list : List edge)
    (ei : List (List Nat)) (eid : Nat) (r : List Nat)
    (hdeg : (edge_list.getD eid edge0).degen = 1) :
    gnNonDegenSum edge_list (ei.set eid r) = gnNonDegenSum edge_list ei := by
  unfold gnNonDegenSum
  refine sum_range_congr _ _ _ ?_
  intro x hx
  by_cases hxe : x = eid
  · subst hxe
    rw [if_pos hdeg, if_pos hdeg]
  · rw [getD_set_ne _ _ _ _ _ (fun hc => hxe hc.symm)]

/-- Filling an empty non-degenerate row credits exactly its length. -/
lemma gnNonDegenSum_set_nondegen (edge_list : List edge)
    (ei : List (List Nat)) (eid : Nat) (r : List Nat)
    (hlt : eid < edge_list.length) (hlt2 : eid < ei.length)
    (hdeg : ¬ (edge_list.getD eid edge0).degen = 1)
    (hempty : ei.getD eid [] = []) :
    gnNonDegenSum edge_list (ei.set eid r) =
      gnNonDegenSum edge_list ei + r.length := by
  unfold gnNonDegenSum
  have hext := sum_range_except edge_list.length eid
    (fun e => if (edge_list.getD e edge0).degen = 1 then 0
      else (ei.getD e []).length)
    (fun e => if (edge_list.getD e edge0).degen = 1 then 0
      else ((ei.set eid r).getD e []).length)
    hlt (fun x hx => by
      dsimp only
      rw [getD_set_ne _ _ _ _ _ (fun hc => hx hc.symm)])
  dsimp only at hext
  rw [if_neg hdeg, if_neg hdeg, hempty, List.length_nil,
    getD_set_self ei eid r [] hlt2] at hext
  omega

/-- One step of the edge pre-pass preserves the pre-pass invariant. -/
lemma gnPrePassSlot_inv (sizes : List (Nat × Nat)) (surface_list : List Nat)
    (edge_link : List (List Nat)) (edge_list : List edge) (nNode : Nat)
    (st st' : Nat × List (List Nat)) (slot : Nat × Nat)
    (h : gnPrePassSlot sizes surface_list edge_link edge_list nNode st
      slot = some st')
    (hinv : gnPreInv edge_list nNode st) :
    gnPreInv edge_list nNode st' := by
  obtain ⟨hlen, hcnt, hrows⟩ := hinv
  unfold gnPrePassSlot at h
  split at h
  · rename_i sz isurf hsz hsurf
    split at h
    · exact Option.noConfusion h
    · rename_i eid heid
      split at h
      · rename_i row ed hrowget hedget
        have heidlt : eid < st.2.length := lt_length_of_get?_eq_some hrowget
        have heidlt2 : eid < edge_list.length :=
          lt_length_of_get?_eq_some hedget
        have hedD : edge_list.getD eid edge0 = ed :=
          getD_of_get?_eq_some edge0 hedget
        have hrowD : st.2.getD eid [] = row :=
          getD_of_get?_eq_some [] hrowget
        split at h
        · rename_i hrow
          split at h
          · rename_i hdeg
            split at h
            · cases h
              refine ⟨by simpa using hlen, ?_, ?_⟩
              · dsimp only
                rw [gnNonDegenSum_set_degen edge_list st.2 eid _
                  (hedD ▸ hdeg)]
                exact hcnt
              · intro e x hdeg2 hmem
                dsimp only at hmem
                by_cases hxe : e = eid
                · subst hxe
                  rw [getD_set_self _ _ _ _ heidlt] at hmem
                  rw [hedD]
                  exact List.eq_of_mem_replicate hmem
                · rw [getD_set_ne _ _ _ _ _ (fun hc => hxe hc.symm)] at hmem
                  exact hrows e x hdeg2 hmem
            · exact Option.noConfusion h
          · rename_i hdeg
            cases h
            refine ⟨by simpa using hlen, ?_, ?_⟩
            · dsimp only
              rw [gnNonDegenSum_set_nondegen edge_list st.2 eid _
                heidlt2 heidlt (hedD ▸ hdeg) (hrowD.trans hrow)]
              rw [List.length_range']
              omega
            · intro e x hdeg2 hmem
              dsimp only at hmem
              by_cases hxe : e = eid
              · subst hxe
                rw [hedD] at hdeg2
                exact absurd hdeg2 (hedD ▸ hdeg)
              · rw [getD_set_ne _ _ _ _ _ (fun hc => hxe hc.symm)] at hmem
                exact hrows e x hdeg2 hmem
        · cases h
          exact ⟨hlen, hcnt, hrows⟩
      · exact Option.noConfusion h
  · exact Option.noConfusion h

/-- The whole edge pre-pass preserves the pre-pass invariant. -/
lemma gnPrePass_inv (sizes : List (Nat × Nat)) (surface_list : List Nat)
    (edge_link : List (List Nat)) (edge_list : List edge) (nNode : Nat) :
    ∀ (slots : List (Nat × Nat)) (st r : Nat × List (List Nat)),
    slots.foldlM (gnPrePassSlot sizes surface_list edge_link edge_list
      nNode) st = some r →
    gnPreInv edge_list nNode st → gnPreInv edge_list nNode r := by
  intro slots
  induction slots with
  | nil =>
    intro st r h hinv
    simp only [List.foldlM_nil] at h
    cases h
    exact hinv
  | cons a l ih =>
    intro st r h hinv
    rw [List.foldlM_cons] at h
    cases hstep : gnPrePassSlot sizes surface_list edge_link edge_list
        nNode st a with
    | none => rw [hstep] at h; exact Option.noConfusion h
    | some s1 =>
      rw [hstep] at h
      simp only [Option.bind_eq_bind, Option.some_bind] at h
      exact ih s1 r h
        (gnPrePassSlot_inv _ _ _ _ _ _ _ _ hstep hinv)

/-- C2.  Whenever `calcGlobalNumbering` succeeds, its edge pre-pass
allocates zero new global ids for every edge marked degenerate: the id
counter leaving the pre-pass is the node count plus only the ids handed
to non-degenerate edges, and every interior position of a degenerate
edge's id row holds the id of the edge's single endpoint node, so the
fill loop reuses that node id along the whole edge. -/
theorem calcGlobalNumbering_degenerate_edge_zero_new_ids
    (sizes : List (Nat × Nat)) (surface_list : List Nat)
    (node_link : List (List Nat)) (edge_list : List edge)
    (edge_link : List (List Nat)) (edge_dir : List (List Int))
    (ncoef : Nat) (g : List (List (Nat × Nat × Nat)))
    (l : List (List (List Int)))
    (h : calcGlobalNumbering sizes surface_list node_link edge_list
      edge_link edge_dir = some (ncoef, g, l)) :
    ∃ counter edge_index,
      gnPrePass sizes surface_list edge_link edge_list
        node_link.flatten.dedup.length = some (counter, edge_index) ∧
      counter = node_link.flatten.dedup.length +
        gnNonDegenSum edge_list edge_index ∧
      ∀ e x, (edge_list.getD e edge0).degen = 1 →
        x ∈ edge_index.getD e [] → x = (edge_list.getD e edge0).n1 := by
  unfold calcGlobalNumbering at h
  split at h
  · split at h
    · exact Option.noConfusion h
    · rename_i pre counter edge_index hpre
      have hpre2 := hpre
      unfold gnPrePass at hpre2
      have hinit : gnPreInv edge_list node_link.flatten.dedup.length
          (node_link.flatten.dedup.length,
            List.replicate edge_list.length []) := by
        refine ⟨List.length_replicate _ _, ?_, ?_⟩
        · dsimp only
          rw [gnNonDegenSum_replicate_nil]
          omega
        · intro e x hdeg hmem
          dsimp only at hmem
          rw [getD_replicate_nil] at hmem
          exact absurd hmem (List.not_mem_nil x)
      have hfin := gnPrePass_inv sizes surface_list edge_link edge_list
        node_link.flatten.dedup.length (gnSlots surface_list.length)
        _ _ hpre2 hinit
      exact ⟨counter, edge_index, hpre, hfin.2.1, hfin.2.2⟩
  · exact Option.noConfusion h

/-- C2, witness: on the `3 × 3` surface whose edge 0 collapses onto node
0, the pre-pass succeeds, its counter is the 3 nodes plus only the
non-degenerate edges' ids, and the degenerate edge's row repeats node 0. -/
theorem calcGlobalNumbering_degenerate_edge_zero_new_ids_witness :
    ∃ counter edge_index,
      gnPrePass gnSizesW [0] gnEdgeLinkW gnEdgeListW2
        gnNodeLinkW2.flatten.dedup.length = some (counter, edge_index) ∧
      counter = gnNodeLinkW2.flatten.dedup.length +
        gnNonDegenSum gnEdgeListW2 edge_index ∧
      ∀ e x, (gnEdgeListW2.getD e edge0).degen = 1 →
        x ∈ edge_index.getD e [] → x = (gnEdgeListW2.getD e edge0).n1 :=
  calcGlobalNumbering_degenerate_edge_zero_new_ids gnSizesW [0]
    gnNodeLinkW2 gnEdgeListW2 gnEdgeLinkW gnEdgeDirW gnResW2.1
    gnResW2.2.1 gnResW2.2.2 rfl

end GNProofs


section RefAxisProofs

variable {R : Type} [LinearOrderedCommRing R]

/-- A connection step leaves every axis outside the connection alone. -/
lemma conStep_untouched (getValue : RefAxis R → R → Vec3 R)
    (rotL2G : RefAxis R → R → Vec3 R → Vec3 R)
    (scalesAt : RefAxis R → R → R) (axes res : List (RefAxis R))
    (con : Nat × Nat)
    (h : conStep getValue rotL2G scalesAt axes con = some res)
    (r : Nat) (h1 : r ≠ con.1) (h2 : r ≠ con.2) :
    res.get? r = axes.get? r := by
  unfold conStep at h
  split at h
  · exact Option.noConfusion h
  · rename_i a1pre hget1
    split at h
    · exact Option.noConfusion h
    · rename_i a2 hget2
      cases h
      rw [List.get?_set_ne _ _ (Ne.symm h2), List.get?_set_ne _ _ (Ne.symm h1)]

/-- The connection walk leaves every axis in no connection alone. -/
lemma conFold_untouched (getValue : RefAxis R → R → Vec3 R)
    (rotL2G : RefAxis R → R → Vec3 R → Vec3 R)
    (scalesAt : RefAxis R → R → R) :
    ∀ (cons : List (Nat × Nat)) (axes res : List (RefAxis R)),
    cons.foldlM (conStep getValue rotL2G scalesAt) axes = some res →
    ∀ r, (∀ c ∈ cons, r ≠ c.1 ∧ r ≠ c.2) → res.get? r = axes.get? r := by
  intro cons
  induction cons with
  | nil =>
    intro axes res h r hr
    simp only [List.foldlM_nil] at h
    cases h
    rfl
  | cons a l ih =>
    intro axes res h r hr
    rw [List.foldlM_cons] at h
    cases hstep : conStep getValue rotL2G scalesAt axes a with
    | none => rw [hstep] at h; exact Option.noConfusion h
    | some s1 =>
      rw [hstep] at h
      simp only [Option.bind_eq_bind, Option.some_bind] at h
      have hhead := hr a (List.mem_cons_self a l)
      rw [ih s1 res h r (fun c hc => hr c (List.mem_cons_of_mem a hc))]
      exact conStep_untouched getValue rotL2G scalesAt axes s1 a hstep r
        hhead.1 hhead.2

/-- C4 (amended).  Step 2 of `_updateCoef` updates every axis directly
only when the connection list is empty.  When connections are present,
only the walk over the connection list runs: a single connection
updates its parent, recomputes the child's anchors from the updated
parent and updates the child, while every axis appearing in no
connection is left untouched, so its spline coefficients are not
refreshed from its station data.  This refutes the original claim that
unconnected axes are also updated when the connection list is
non-empty. -/
theorem updateCoef_step2_characterization (getValue : RefAxis R → R → Vec3 R)
    (rotL2G : RefAxis R → R → Vec3 R → Vec3 R)
    (scalesAt : RefAxis R → R → R) (cons : List (Nat × Nat))
    (axes res : List (RefAxis R))
    (h : updateCoefStep2 getValue rotL2G scalesAt cons axes = some res) :
    (cons = [] → res = axes.map raUpdate) ∧
    (cons ≠ [] → ∀ r, (∀ c ∈ cons, r ≠ c.1 ∧ r ≠ c.2) →
      res.get? r = axes.get? r) ∧
    (∀ c1 c2 a1pre a2, cons = [(c1, c2)] →
      axes.get? c1 = some a1pre →
      (axes.set c1 (raUpdate a1pre)).get? c2 = some a2 →
      res = (axes.set c1 (raUpdate a1pre)).set c2
        (raUpdate (conAnchor getValue rotL2G scalesAt (raUpdate a1pre) a2))) := by
  refine ⟨?_, ?_, ?_⟩
  · intro hc
    subst hc
    unfold updateCoefStep2 at h
    rw [if_neg (by simp)] at h
    exact (Option.some.inj h).symm
  · intro hc r hr
    unfold updateCoefStep2 at h
    rw [if_pos (by cases cons with
      | nil => exact absurd rfl hc
      | cons a l => simp)] at h
    exact conFold_untouched getValue rotL2G scalesAt cons axes res h r hr
  · intro c1 c2 a1pre a2 hc hget1 hget2
    subst hc
    unfold updateCoefStep2 at h
    rw [if_pos (by simp)] at h
    rw [List.foldlM_cons] at h
    unfold conStep at h
    rw [hget1] at h
    dsimp only at h
    rw [hget2] at h
    dsimp only at h
    simp only [Option.bind_eq_bind, Option.some_bind, List.foldlM_nil] at h
    exact (Option.some.inj h).symm

/-- C4, witness: on the three-axis model with the single connection
`(0, 1)`, the characterization applies; in particular the unconnected
axis 2 keeps its stale coefficients. -/
theorem updateCoef_step2_characterization_witness :
    (consW4 = [] → resW4 = axesW4.map raUpdate) ∧
    (consW4 ≠ [] → ∀ r, (∀ c ∈ consW4, r ≠ c.1 ∧ r ≠ c.2) →
      resW4.get? r = axesW4.get? r) ∧
    (∀ c1 c2 a1pre a2, consW4 = [(c1, c2)] →
      axesW4.get? c1 = some a1pre →
      (axesW4.set c1 (raUpdate a1pre)).get? c2 = some a2 →
      resW4 = (axesW4.set c1 (raUpdate a1pre)).set c2
        (raUpdate (conAnchor gvW4 rlgW4 scW4 (raUpdate a1pre) a2))) :=
  updateCoef_step2_characterization gvW4 rlgW4 scW4 consW4 axesW4 resW4 rfl

/-- C4, counterexample: with the non-empty connection list `[(0, 1)]`,
step 2 of `_updateCoef` succeeds but the unconnected axis 2 keeps its
stale spline coefficients, which differ from its current station data
`base_point + x` — its splines do not reflect the station data. -/
theorem updateCoef_nonempty_cons_stale_axis :
    updateCoefStep2 gvW4 rlgW4 scW4 consW4 axesW4 = some resW4 ∧
    resW4.get? 2 = some raStale ∧
    raStale.xs_coef ≠ raStale.x.map (vadd raStale.base_point) ∧
    raStale.con_type_full = false := by
  refine ⟨rfl, rfl, ?_, rfl⟩
  decide

end RefAxisProofs


section RotProofs

/-- C5.  The two rotation matrices of `ref_axis` are indeed mutual
inverses (shown here at the angle triple with cosine-sine pairs
`(1, 0)`, `(3/5, 4/5)`, `(5/13, 12/13)`), but the composition order is
not the documented Z-then-Y-then-X: at that same angle triple the
local-to-global matrix differs from both readings of the order Z-Y-X,
because the code composes `rotyM . rotxM . rotzM` (Z, then X, then Y),
contradicting the constructor docstring at source line 3020. -/
theorem getRotMatrix_order_contradicts_docstring :
    matMul (getRotMatrixGlobalToLocal (1 : ℚ) 0 (3/5) (4/5) (5/13) (12/13))
      (getRotMatrixLocalToGlobal 1 0 (3/5) (4/5) (5/13) (12/13)) = matId ∧
    getRotMatrixLocalToGlobal (1 : ℚ) 0 (3/5) (4/5) (5/13) (12/13) ≠
      rotLocalToGlobalSpecZYX 1 0 (3/5) (4/5) (5/13) (12/13) ∧
    getRotMatrixLocalToGlobal (1 : ℚ) 0 (3/5) (4/5) (5/13) (12/13) ≠
      rotLocalToGlobalSpecProd 1 0 (3/5) (4/5) (5/13) (12/13) := by
  refine ⟨?_, fun hc => ?_, fun hc => ?_⟩
  · norm_num [getRotMatrixGlobalToLocal, getRotMatrixLocalToGlobal,
      matMul, matInv, matDet, rotxM, rotyM, rotzM, matId, dot3,
      matCol1, matCol2, matCol3, Prod.ext_iff]
  · have h12 := congrArg (fun m : Mat3 ℚ => m.1.2.1) hc
    norm_num [getRotMatrixLocalToGlobal, rotLocalToGlobalSpecZYX,
      matMul, matInv, matDet, rotxM, rotyM, rotzM, dot3,
      matCol1, matCol2, matCol3] at h12
  · have h12 := congrArg (fun m : Mat3 ℚ => m.1.2.1) hc
    norm_num [getRotMatrixLocalToGlobal, rotLocalToGlobalSpecProd,
      matMul, matInv, matDet, rotxM, rotyM, rotzM, dot3,
      matCol1, matCol2, matCol3] at h12

end RotProofs


section KnotProofs

/-- What the `ku` adjustment does, case by case. -/
lemma clampKu_spec (sf : SurfM) :
    (clampKu sf).Nctlu = sf.Nctlu ∧ (clampKu sf).Nctlv = sf.Nctlv ∧
    (clampKu sf).kv = sf.kv ∧
    (sf.ku < sf.Nctlu → (clampKu sf).ku = min 4 sf.Nctlu) ∧
    (¬ sf.ku < sf.Nctlu → (clampKu sf).ku = sf.ku) := by
  unfold clampKu
  by_cases h : sf.ku < sf.Nctlu
  · rw [if_pos h]
    by_cases h4 : sf.Nctlu > 4
    · rw [if_pos h4]
      exact ⟨rfl, rfl, rfl, fun hc => by dsimp only; omega,
        fun hc => absurd h hc⟩
    · rw [if_neg h4]
      exact ⟨rfl, rfl, rfl, fun hc => by dsimp only; omega,
        fun hc => absurd h hc⟩
  · rw [if_neg h]
    exact ⟨rfl, rfl, rfl, fun hc => absurd hc h, fun hc => rfl⟩

/-- What the `kv` adjustment does, case by case. -/
lemma clampKv_spec (sf : SurfM) :
    (clampKv sf).Nctlu = sf.Nctlu ∧ (clampKv sf).Nctlv = sf.Nctlv ∧
    (clampKv sf).ku = sf.ku ∧
    (sf.kv < sf.Nctlv → (clampKv sf).kv = min 4 sf.Nctlv) ∧
    (¬ sf.kv < sf.Nctlv → (clampKv sf).kv = sf.kv) := by
  unfold clampKv
  by_cases h : sf.kv < sf.Nctlv
  · rw [if_pos h]
    by_cases h4 : sf.Nctlv > 4
    · rw [if_pos h4]
      exact ⟨rfl, rfl, rfl, fun hc => by dsimp only; omega,
        fun hc => absurd h hc⟩
    · rw [if_neg h4]
      exact ⟨rfl, rfl, rfl, fun hc => by dsimp only; omega,
        fun hc => absurd h hc⟩
  · rw [if_neg h]
    exact ⟨rfl, rfl, rfl, fun hc => absurd hc h, fun hc => rfl⟩

/-- The conditional-clamp behaviour of one surface of the sizing
pass. -/
lemma propagateSizeSurf_clamp (edge_list : List edge)
    (edge_link : List (List Nat)) (ncoef : List Nat) (isurf : Nat)
    (sf res : SurfM)
    (h : propagateSizeSurf edge_list edge_link ncoef isurf sf = some res) :
    (sf.ku < res.Nctlu → res.ku = min 4 res.Nctlu) ∧
    (¬ sf.ku < res.Nctlu → res.ku = sf.ku) ∧
    (sf.kv < res.Nctlv → res.kv = min 4 res.Nctlv) ∧
    (¬ sf.kv < res.Nctlv → res.kv = sf.kv) := by
  unfold propagateSizeSurf at h
  split at h
  · split at h
    · split at h
      · rename_i e0 e2 he0 he2 ed0 ed2 hed0 hed2 nu nv hnu hnv
        cases h
        have hu := clampKu_spec { sf with Nctlu := nu, Nctlv := nv }
        have hv := clampKv_spec (clampKu { sf with Nctlu := nu, Nctlv := nv })
        have hNu : (clampKv (clampKu
            { sf with Nctlu := nu, Nctlv := nv })).Nctlu = nu := by
          rw [hv.1, hu.1]
        have hNv : (clampKv (clampKu
            { sf with Nctlu := nu, Nctlv := nv })).Nctlv = nv := by
          rw [hv.2.1, hu.2.1]
        refine ⟨?_, ?_, ?_, ?_⟩
        · intro hc
          rw [hNu] at hc ⊢
          rw [hv.2.2.1, hu.2.2.2.1 hc]
        · intro hc
          rw [hNu] at hc
          rw [hv.2.2.1, hu.2.2.2.2 hc]
        · intro hc
          rw [hNv] at hc ⊢
          rw [hv.2.2.2.1 (by rw [hu.2.2.1, hu.2.1]; exact hc)]
          rw [hu.2.1]
        · intro hc
          rw [hNv] at hc
          rw [hv.2.2.2.2 (by rw [hu.2.2.1, hu.2.1]; exact hc), hu.2.2.1]
      · exact Option.noConfusion h
    · exact Option.noConfusion h
  · exact Option.noConfusion h

/-- The sizing pass processes each surface independently at its own
index. -/
lemma propagateSizes_spec (edge_list : List edge)
    (edge_link : List (List Nat)) (ncoef : List Nat) :
    ∀ (surfs : List SurfM) (i0 : Nat) (ress : List SurfM),
    propagateSizes edge_list edge_link ncoef i0 surfs = some ress →
    ress.length = surfs.length ∧
    ∀ i sf res, surfs.get? i = some sf → ress.get? i = some res →
      propagateSizeSurf edge_list edge_link ncoef (i0 + i) sf = some res := by
  intro surfs
  induction surfs with
  | nil =>
    intro i0 ress h
    unfold propagateSizes at h
    cases h
    exact ⟨rfl, fun i sf res hsf => by simp at hsf⟩
  | cons sf0 rest ih =>
    intro i0 ress h
    unfold propagateSizes at h
    split at h
    · exact Option.noConfusion h
    · rename_i r hr
      split at h
      · exact Option.noConfusion h
      · rename_i rs hrs
        cases h
        obtain ⟨hlen, htail⟩ := ih (i0 + 1) rs hrs
        refine ⟨by simpa using hlen, ?_⟩
        intro i sf res hsf hres
        cases i with
        | zero =>
          cases hsf
          cases hres
          simpa using hr
        | succ i =>
          have := htail i sf res (by simpa using hsf) (by simpa using hres)
          have harith : i0 + 1 + i = i0 + (i + 1) := by omega
          rw [harith] at this
          exact this

/-- C6 (amended).  The sizing pass of `propagateKnotVectors` overwrites
each surface's control counts from its design groups and then adjusts a
spline order only when the old order is below the new count — capping
it at 4 when the count exceeds 4 and setting it to the count otherwise;
when the old order is at or above the new count the order is left
unchanged, so `ku <= Nctlu` (resp. `kv <= Nctlv`) can fail after the
pass.  This refutes the original claim that the order never exceeds the
count. -/
theorem propagateKnotVectors_order_clamp (edge_list : List edge)
    (edge_link : List (List Nat)) (surfs ress : List SurfM)
    (h : propagateKnotSizes edge_list edge_link surfs = some ress) :
    ress.length = surfs.length ∧
    ∀ i sf res, surfs.get? i = some sf → ress.get? i = some res →
      (sf.ku < res.Nctlu → res.ku = min 4 res.Nctlu) ∧
      (¬ sf.ku < res.Nctlu → res.ku = sf.ku) ∧
      (sf.kv < res.Nctlv → res.kv = min 4 res.Nctlv) ∧
      (¬ sf.kv < res.Nctlv → res.kv = sf.kv) := by
  unfold propagateKnotSizes at h
  obtain ⟨hlen, hall⟩ := propagateSizes_spec edge_list edge_link
    (propagateNcoef edge_list).2 surfs 0 ress h
  exact ⟨hlen, fun i sf res hsf hres =>
    propagateSizeSurf_clamp edge_list edge_link
      (propagateNcoef edge_list).2 (0 + i) sf res (hall i sf res hsf hres)⟩

/-- C6, witness: on the witness topology the sizing pass succeeds and
the characterization applies to its single surface, whose `u` count
drops to 3 while `ku` stays 4. -/
theorem propagateKnotVectors_order_clamp_witness :
    resW6.length = surfsW6.length ∧
    ((surfW6.ku < resW6one.Nctlu → resW6one.ku = min 4 resW6one.Nctlu) ∧
     (¬ surfW6.ku < resW6one.Nctlu → resW6one.ku = surfW6.ku) ∧
     (surfW6.kv < resW6one.Nctlv → resW6one.kv = min 4 resW6one.Nctlv) ∧
     (¬ surfW6.kv < resW6one.Nctlv → resW6one.kv = surfW6.kv)) := by
  have h := propagateKnotVectors_order_clamp edgeListW6 edgeLinkW6
    surfsW6 resW6 rfl
  exact ⟨h.1, h.2 0 surfW6 resW6one rfl rfl⟩

/-- C6, counterexample: after the sizing pass the witness surface has
`Nctlu = 3` but keeps `ku = 4`, so the spline order exceeds the
control-point count. -/
theorem propagateKnotVectors_order_exceeds_count :
    propagateKnotSizes edgeListW6 edgeLinkW6 surfsW6 = some [resW6one] ∧
    (resW6one.Nctlu < resW6one.ku) := by
  exact ⟨rfl, by decide⟩

end KnotProofs


section DVProofs

/-- `removeCoef` never touches the value array (the `numpy.delete`
results are discarded). -/
lemma removeCoef_value : ∀ (rm : List Nat) (dv : geoDV),
    (removeCoef dv rm).value = dv.value := by
  intro rm
  induction rm with
  | nil => intro dv; rfl
  | cons a rm ih =>
    intro dv
    have hstep : (removeCoefStep dv a).value = dv.value := by
      unfold removeCoefStep
      split <;> rfl
    rw [removeCoef, List.foldl_cons]
    have := ih (removeCoefStep dv a)
    rw [removeCoef] at this
    rw [this, hstep]

/-- `removeCoef` drops one occurrence per occurrence in the removal
list: the count characterization. -/
lemma removeCoef_count : ∀ (rm : List Nat) (dv : geoDV) (r : Nat),
    (removeCoef dv rm).coef_list.count r =
      dv.coef_list.count r -
        min (dv.coef_list.count r) (rm.count r) := by
  intro rm
  induction rm with
  | nil => intro dv r; simp [removeCoef]
  | cons a rm ih =>
    intro dv r
    rw [removeCoef, List.foldl_cons]
    have hih := ih (removeCoefStep dv a) r
    rw [removeCoef] at hih
    rw [hih]
    by_cases har : a = r
    · subst har
      rw [List.count_cons_self]
      unfold removeCoefStep
      by_cases hmem : a ∈ dv.coef_list
      · rw [if_pos hmem]
        dsimp only
        rw [List.count_erase_self]
        have hpos : 0 < dv.coef_list.count a :=
          List.count_pos_iff.mpr hmem
        omega
      · rw [if_neg hmem]
        have hz : dv.coef_list.count a = 0 := List.count_eq_zero.mpr hmem
        omega
    · rw [List.count_cons_of_ne (fun hc => har hc.symm)]
      have hstep : (removeCoefStep dv a).coef_list.count r =
          dv.coef_list.count r := by
        unfold removeCoefStep
        split
        · dsimp only
          exact List.count_erase_of_ne (fun hc => har hc.symm) _
        · rfl
      rw [hstep]

/-- Scanning a group list that nowhere claims the id changes
nothing. -/
lemma dvGroupScan_zero (r : Nat) : ∀ (gs : List geoDV) (nl : List Nat),
    gs.countP (fun dv => dv.coef_list.contains r) = 0 →
    dvGroupScan r gs nl = some nl := by
  intro gs
  induction gs with
  | nil => intro nl h; rfl
  | cons dv gs ih =>
    intro nl h
    rw [List.countP_cons] at h
    by_cases hp : r ∈ dv.coef_list
    · exfalso
      have hct : dv.coef_list.contains r = true := by simpa using hp
      rw [hct, if_pos rfl] at h
      omega
    · have hcf : dv.coef_list.contains r = false := by simpa using hp
      rw [hcf] at h
      have h2 : gs.countP (fun dv => dv.coef_list.contains r) = 0 := by
        omega
      rw [dvGroupScan, List.foldlM_cons]
      rw [if_neg hp]
      simp only [Option.bind_eq_bind, Option.some_bind]
      have := ih nl h2
      rw [dvGroupScan] at this
      exact this

/-- Scanning a group list with exactly one claimant removes the id
once, provided it is still pending. -/
lemma dvGroupScan_one (r : Nat) : ∀ (gs : List geoDV) (nl : List Nat),
    gs.countP (fun dv => dv.coef_list.contains r) = 1 → r ∈ nl →
    dvGroupScan r gs nl = some (nl.erase r) := by
  intro gs
  induction gs with
  | nil => intro nl h; simp at h
  | cons dv gs ih =>
    intro nl h hr
    rw [List.countP_cons] at h
    rw [dvGroupScan, List.foldlM_cons]
    by_cases hp : r ∈ dv.coef_list
    · rw [if_pos hp]
      have hpt : (dv.coef_list.contains r) = true := by simpa using hp
      rw [pyRemove, if_pos hr]
      simp only [Option.bind_eq_bind, Option.some_bind]
      have hrest : gs.countP (fun dv => dv.coef_list.contains r) = 0 := by
        rw [hpt, if_pos rfl] at h
        omega
      have := dvGroupScan_zero r gs (nl.erase r) hrest
      rw [dvGroupScan] at this
      exact this
    · rw [if_neg hp]
      have hpf : (dv.coef_list.contains r) = false := by
        simpa using hp
      rw [hpf, if_neg (by simp)] at h
      have h2 : gs.countP (fun dv => dv.coef_list.contains r) = 1 := by
        omega
      simp only [Option.bind_eq_bind, Option.some_bind]
      have := ih nl h2 hr
      rw [dvGroupScan] at this
      exact this

/-- Under unique ownership, one id of the `overwrite=False` trim either
erases the id (when some group claims it) or leaves the pending list
alone. -/
lemma dvDropStep_spec (normals locals_ : List geoDV) (r : Nat)
    (nl : List Nat)
    (hown : normals.countP (fun dv => dv.coef_list.contains r) +
      locals_.countP (fun dv => dv.coef_list.contains r) ≤ 1)
    (hin : claimedBy normals locals_ r = true → r ∈ nl) :
    dvDropStep normals locals_ nl r =
      some (if claimedBy normals locals_ r then nl.erase r else nl) := by
  have hcn := List.countP_eq_zero
    (p := fun dv => dv.coef_list.contains r) (l := normals)
  have hcl := List.countP_eq_zero
    (p := fun dv => dv.coef_list.contains r) (l := locals_)
  by_cases hc : claimedBy normals locals_ r = true
  · rw [if_pos hc]
    have hr := hin hc
    rcases Bool.or_eq_true_iff.mp (by rwa [claimedBy] at hc) with hN | hL
    · have hpos : 0 < normals.countP (fun dv => dv.coef_list.contains r) := by
        obtain ⟨dv, hdv, hp⟩ := List.any_eq_true.mp hN
        exact List.countP_pos.mpr ⟨dv, hdv, hp⟩
      have h1 : normals.countP (fun dv => dv.coef_list.contains r) = 1 := by
        omega
      have h0 : locals_.countP (fun dv => dv.coef_list.contains r) = 0 := by
        omega
      rw [dvDropStep, dvGroupScan_one r normals nl h1 hr]
      exact dvGroupScan_zero r locals_ (nl.erase r) h0
    · have hpos : 0 < locals_.countP (fun dv => dv.coef_list.contains r) := by
        obtain ⟨dv, hdv, hp⟩ := List.any_eq_true.mp hL
        exact List.countP_pos.mpr ⟨dv, hdv, hp⟩
      have h1 : locals_.countP (fun dv => dv.coef_list.contains r) = 1 := by
        omega
      have h0 : normals.countP (fun dv => dv.coef_list.contains r) = 0 := by
        omega
      rw [dvDropStep, dvGroupScan_zero r normals nl h0]
      exact dvGroupScan_one r locals_ nl h1 hr
  · rw [if_neg hc]
    have hcb : claimedBy normals locals_ r = false := by
      simpa using hc
    rw [claimedBy, Bool.or_eq_false_iff] at hcb
    have h0N : normals.countP (fun dv => dv.coef_list.contains r) = 0 := by
      rw [hcn]
      intro dv hdv
      have := List.any_eq_false.mp hcb.1 dv hdv
      simpa using this
    have h0L : locals_.countP (fun dv => dv.coef_list.contains r) = 0 := by
      rw [hcl]
      intro dv hdv
      have := List.any_eq_false.mp hcb.2 dv hdv
      simpa using this
    rw [dvDropStep, dvGroupScan_zero r normals nl h0N]
    exact dvGroupScan_zero r locals_ nl h0L

/-- The full trim under unique ownership: every claimed pending id is
filtered out. -/
lemma dropFold_spec (normals locals_ : List geoDV)
    (hown : ∀ r, normals.countP (fun dv => dv.coef_list.contains r) +
      locals_.countP (fun dv => dv.coef_list.contains r) ≤ 1) :
    ∀ (todo nl : List Nat), todo.Nodup → nl.Nodup →
    (∀ r ∈ todo, claimedBy normals locals_ r = true → r ∈ nl) →
    todo.foldlM (dvDropStep normals locals_) nl =
      some (nl.filter (fun x =>
        !(todo.contains x && claimedBy normals locals_ x))) := by
  intro todo
  induction todo with
  | nil =>
    intro nl hnd hnl hin
    simp
  | cons r rest ih =>
    intro nl hnd hnl hin
    rw [List.foldlM_cons,
      dvDropStep_spec normals locals_ r nl (hown r)
        (hin r (List.mem_cons_self r rest))]
    simp only [Option.bind_eq_bind, Option.some_bind]
    obtain ⟨hrmem, hrest⟩ := List.nodup_cons.mp hnd
    by_cases hc : claimedBy normals locals_ r = true
    · rw [if_pos hc]
      rw [ih (nl.erase r) hrest (List.Nodup.erase r hnl) ?hin2]
      case hin2 =>
        intro x hx hcx
        have hxr : x ≠ r := fun hxr => hrmem (hxr ▸ hx)
        rw [List.mem_erase_of_ne hxr]
        exact hin x (List.mem_cons_of_mem r hx) hcx
      rw [List.Nodup.erase_eq_filter hnl r, List.filter_filter]
      refine congrArg some (List.filter_congr ?_)
      intro x hx
      by_cases hxr : x = r
      · subst hxr
        simp [hc]
      · simp [hxr, fun hc2 => hxr (by simpa using hc2)]
    · rw [if_neg hc]
      rw [ih nl hrest hnl
        (fun x hx hcx => hin x (List.mem_cons_of_mem r hx) hcx)]
      refine congrArg some (List.filter_congr ?_)
      intro x hx
      by_cases hxr : x = r
      · subst hxr
        have hcb : claimedBy normals locals_ x = false := by simpa using hc
        simp [hcb]
      · simp [hxr, fun hc2 => hxr (by simpa using hc2)]

/-- C8 (amended).  An overwrite registration makes every previously
registered Normal and Local group run `removeCoef` on the requested
ids, which removes one occurrence per occurrence in the request (so a
duplicate-free group loses the requested ids completely, as in the
5,6,7 scenario) while leaving the group's value array untouched; a
registration with `overwrite=False` instead creates the new group from
the request trimmed of the ids already claimed by some group, under
duplicate-free requests and unique prior ownership. -/
theorem addGeoDV_registration_exclusivity
    (coef_list : List Nat) (normals locals_ : List geoDV) :
    (∀ res1 res2,
      addGeoDVLocal coef_list true normals locals_ = some (res1, res2) →
      res1 = normals.map (fun dv => removeCoef dv coef_list) ∧
      res2 = locals_.map (fun dv => removeCoef dv coef_list) ++
        [mkGeoDV coef_list]) ∧
    (∀ dv r, (removeCoef dv coef_list).coef_list.count r =
      dv.coef_list.count r -
        min (dv.coef_list.count r) (coef_list.count r)) ∧
    (∀ dv, (removeCoef dv coef_list).value = dv.value) ∧
    (∀ dv, dv.coef_list.Nodup → ∀ r ∈ coef_list,
      r ∉ (removeCoef dv coef_list).coef_list) ∧
    (coef_list.Nodup →
      (∀ r, normals.countP (fun dv => dv.coef_list.contains r) +
        locals_.countP (fun dv => dv.coef_list.contains r) ≤ 1) →
      addGeoDVLocal coef_list false normals locals_ =
        some (normals, locals_ ++ [mkGeoDV (coef_list.filter
          (fun r => !(claimedBy normals locals_ r)))])) := by
  refine ⟨?_, fun dv r => removeCoef_count coef_list dv r,
    fun dv => removeCoef_value coef_list dv, ?_, ?_⟩
  · intro res1 res2 h
    rw [addGeoDVLocal, if_pos rfl] at h
    have h2 := Option.some.inj h
    exact ⟨(congrArg Prod.fst h2).symm, (congrArg Prod.snd h2).symm⟩
  · intro dv hnd r hr
    have hc := removeCoef_count coef_list dv r
    have h1 : dv.coef_list.count r ≤ 1 :=
      List.nodup_iff_count_le_one.mp hnd r
    have hk : 0 < coef_list.count r := List.count_pos_iff.mpr hr
    have h0 : (removeCoef dv coef_list).coef_list.count r = 0 := by
      omega
    exact List.count_eq_zero.mp h0
  · intro hnd hown
    rw [addGeoDVLocal, if_neg (by simp)]
    have hd := dropFold_spec normals locals_ hown coef_list coef_list
      hnd hnd (fun r hr hc => hr)
    rw [dvDropClaimed, hd]
    dsimp only
    have hfeq : coef_list.filter (fun x =>
        !(coef_list.contains x && claimedBy normals locals_ x)) =
        coef_list.filter (fun r => !(claimedBy normals locals_ r)) := by
      refine List.filter_congr ?_
      intro x hx
      have hct : coef_list.contains x = true := by simpa using hx
      rw [hct, Bool.true_and]
    rw [hfeq]

/-- C8, witness: the 5,6,7 scenario — a Normal group on ids 5, 6, 7
loses all three when they are requested with overwrite (its value array
staying as it was), and a non-overwrite request of the ids 8 and 5
creates the new group on id 8 only. -/
theorem addGeoDV_registration_exclusivity_witness :
    5 ∉ (removeCoef dvN567 [5, 6, 7]).coef_list ∧
    6 ∉ (removeCoef dvN567 [5, 6, 7]).coef_list ∧
    7 ∉ (removeCoef dvN567 [5, 6, 7]).coef_list ∧
    (removeCoef dvN567 [5, 6, 7]).value = dvN567.value ∧
    addGeoDVLocal [8, 5] false [dvN567] [] =
      some ([dvN567], [mkGeoDV [8]]) := by
  have h1 := addGeoDV_registration_exclusivity [5, 6, 7] [dvN567] []
  have h2 := addGeoDV_registration_exclusivity [8, 5] [dvN567] []
  refine ⟨h1.2.2.2.1 dvN567 (by decide) 5 (by decide),
    h1.2.2.2.1 dvN567 (by decide) 6 (by decide),
    h1.2.2.2.1 dvN567 (by decide) 7 (by decide),
    h1.2.2.1 dvN567, ?_⟩
  have h5 := h2.2.2.2.2 (by decide) ?hown
  case hown =>
    intro r
    simp only [List.countP_cons, List.countP_nil]
    split <;> omega
  exact h5.trans (by decide)

/-- C8, counterexample: a Normal group holding id 5 twice keeps one
copy of 5 after a Local overwrite registration of 5, so the id then
belongs to two groups; the group's value array also keeps its stale
length 2 against the updated `nVal` of 1. -/
theorem addGeoDV_overwrite_leaves_duplicate_id :
    addGeoDVLocal [5] true [dvN55] [] = some dvRes55 ∧
    5 ∈ (dvRes55.1.getD 0 dvN55).coef_list ∧
    (dvRes55.1.getD 0 dvN55).nVal = 1 ∧
    (dvRes55.1.getD 0 dvN55).value.length = 2 := by
  exact ⟨rfl, by decide, by decide, by decide⟩

end DVProofs


section ConnFileProofs

/-- Parsing a written natural number recovers it. -/
lemma readNat_cast (n : Nat) : readNat (n : Int) = some n := by
  rw [readNat, if_pos (Int.natCast_nonneg n)]
  rw [Int.toNat_natCast]

/-- Reading back one written edge line recovers the edge. -/
lemma readEdgeLine_writeInfo (i : Nat) (e : edge) :
    readEdgeLine (writeInfo i e) = some e := by
  show (match readNat (e.n1 : Int), readNat (e.n2 : Int),
      readNat (e.cont : Int), readNat (e.degen : Int),
      readNat (e.intersect : Int), readNat (e.Nctl : Int) with
    | some n1, some n2, some cont, some degen, some inter, some nctl =>
      some (⟨n1, n2, cont, degen, inter, e.dg, nctl⟩ : edge)
    | _, _, _, _, _, _ => none) = some e
  rw [readNat_cast, readNat_cast, readNat_cast, readNat_cast,
    readNat_cast, readNat_cast]

/-- A list of length four is a literal quadruple. -/
lemma length_four {α : Type} {l : List α} (h : l.length = 4) :
    ∃ a b c d, l = [a, b, c, d] := by
  rcases l with - | ⟨a, - | ⟨b, - | ⟨c, - | ⟨d, - | ⟨e, t⟩⟩⟩⟩⟩
  · simp at h
  · simp at h
  · simp at h
  · simp at h
  · exact ⟨a, b, c, d, rfl⟩
  · simp at h

/-- Parsing four written naturals recovers them. -/
lemma mapM_readNat4 (a b c d : Nat) :
    [(a : Int), b, c, d].mapM readNat = some [a, b, c, d] := by
  rw [List.mapM_cons, List.mapM_cons, List.mapM_cons, List.mapM_cons,
    List.mapM_nil, readNat_cast, readNat_cast, readNat_cast, readNat_cast]
  rfl

/-- Evaluating a surface line from its looked-up quadruples. -/
lemma surfLine_eval (nl el : List (List Nat)) (dl : List (List Int))
    (i : Nat) (a b c d e1 e2 e3 e4 : Nat) (d1 d2 d3 d4 : Int)
    (hnr : nl.get? i = some [a, b, c, d])
    (her : el.get? i = some [e1, e2, e3, e4])
    (hdr : dl.get? i = some [d1, d2, d3, d4]) :
    surfLine nl el dl i = some [(i : Int), a, b, c, d,
      e1, e2, e3, e4, d1, d2, d3, d4] := by
  unfold surfLine
  rw [hnr, her, hdr]
  rfl

/-- Reading back one written surface line recovers the three rows. -/
lemma readSurfLine_eval (i : Int) (a b c d e1 e2 e3 e4 : Nat)
    (d1 d2 d3 d4 : Int) :
    readSurfLine [i, a, b, c, d, e1, e2, e3, e4, d1, d2, d3, d4] =
      some ([a, b, c, d], [e1, e2, e3, e4], [d1, d2, d3, d4]) := by
  show (match [(a : Int), b, c, d].mapM readNat,
      [(e1 : Int), e2, e3, e4].mapM readNat with
    | some ns2, some es2 => some (ns2, es2, [d1, d2, d3, d4])
    | _, _ => none) =
    some ([a, b, c, d], [e1, e2, e3, e4], [d1, d2, d3, d4])
  rw [mapM_readNat4, mapM_readNat4]

/-- `mapM` over an index range collects pointwise successes. -/
lemma mapM_range'_some {α : Type} (f : Nat → Option α) :
    ∀ (n s : Nat) (l : List α), l.length = n →
    (∀ i, i < n → f (s + i) = l.get? i) →
    (List.range' s n).mapM f = some l := by
  intro n
  induction n with
  | zero =>
    intro s l hl h
    rw [List.eq_nil_of_length_eq_zero hl]
    rfl
  | succ n ih =>
    intro s l hl h
    cases l with
    | nil => simp at hl
    | cons a l2 =>
      rw [List.range'_succ, List.mapM_cons]
      have h0 : f s = some a := by
        have := h 0 (by omega)
        simpa using this
      rw [h0]
      have ht := ih (s + 1) l2 (by simpa using hl) ?harg
      case harg =>
        intro i hi
        have := h (i + 1) (by omega)
        rw [show s + (i + 1) = s + 1 + i by omega] at this
        simpa using this
      rw [ht]
      rfl

/-- `mapM` over `List.range` collects pointwise successes. -/
lemma mapM_range_some {α : Type} (f : Nat → Option α) (n : Nat)
    (l : List α) (hl : l.length = n)
    (h : ∀ i, i < n → f i = l.get? i) :
    (List.range n).mapM f = some l := by
  rw [List.range_eq_range']
  refine mapM_range'_some f n 0 l hl ?_
  intro i hi
  rw [Nat.zero_add]
  exact h i hi

/-- `get?` inside the bounds reads the `getD` value. -/
lemma get?_eq_some_getD {α : Type} (l : List α) (d : α) (i : Nat)
    (hi : i < l.length) : l.get? i = some (l.getD i d) := by
  rw [List.getD_eq_getElem _ _ hi, List.get?_eq_getElem?,
    List.getElem?_eq_getElem hi]

/-- Skipping the two header positions of the file. -/
lemma get?_cons2 {α : Type} (x y : α) (l : List α) (i : Nat) :
    (x :: y :: l).get? (2 + i) = l.get? i := by
  rw [show 2 + i = (i + 1) + 1 by omega]
  rw [List.get?_cons_succ, List.get?_cons_succ]

/-- C9.  Writing the edge connectivity file and reading it back is a
round trip: on any stitched state whose three link tables hold one
four-entry row per surface, the writer succeeds and the reader recovers
exactly the edge list (all seven fields) and the node-link, edge-link
and edge-direction tables, so re-running the global indexer sees the
same topology.  The `%3d`-formatted text cells are modelled as exact
integers. -/
theorem writeEdgeConnectivity_roundtrip
    (node_link edge_link : List (List Nat)) (edge_list : List edge)
    (edge_dir : List (List Int))
    (hel : edge_link.length = node_link.length)
    (hdl : edge_dir.length = node_link.length)
    (h4n : ∀ r ∈ node_link, r.length = 4)
    (h4e : ∀ r ∈ edge_link, r.length = 4)
    (h4d : ∀ r ∈ edge_dir, r.length = 4) :
    ∃ lines,
      writeEdgeConnectivity node_link edge_link edge_list edge_dir =
        some lines ∧
      readEdgeConnectivity node_link.length lines =
        some (edge_list, node_link, edge_link, edge_dir) := by
  have hsline : ∀ i, i < node_link.length →
      surfLine node_link edge_link edge_dir i =
        some ([(i : Int)] ++ (node_link.getD i []).map Int.ofNat ++
          (edge_link.getD i []).map Int.ofNat ++ edge_dir.getD i []) ∧
      readSurfLine ([(i : Int)] ++ (node_link.getD i []).map Int.ofNat ++
          (edge_link.getD i []).map Int.ofNat ++ edge_dir.getD i []) =
        some (node_link.getD i [], edge_link.getD i [],
          edge_dir.getD i []) := by
    intro i hi
    have hie : i < edge_link.length := by omega
    have hid : i < edge_dir.length := by omega
    obtain ⟨a, b, c, d, hnr⟩ := length_four (h4n _
      (List.getD_eq_getElem node_link [] hi ▸ List.getElem_mem hi))
    obtain ⟨e1, e2, e3, e4, her⟩ := length_four (h4e _
      (List.getD_eq_getElem edge_link [] hie ▸ List.getElem_mem hie))
    obtain ⟨d1, d2, d3, d4, hdr⟩ := length_four (h4d _
      (List.getD_eq_getElem edge_dir [] hid ▸ List.getElem_mem hid))
    rw [hnr, her, hdr]
    constructor
    · exact surfLine_eval node_link edge_link edge_dir i a b c d
        e1 e2 e3 e4 d1 d2 d3 d4
        ((get?_eq_some_getD node_link [] i hi).trans (by rw [hnr]))
        ((get?_eq_some_getD edge_link [] i hie).trans (by rw [her]))
        ((get?_eq_some_getD edge_dir [] i hid).trans (by rw [hdr]))
    · exact readSurfLine_eval i a b c d e1 e2 e3 e4 d1 d2 d3 d4
  have hwrite : (List.range node_link.length).mapM
      (surfLine node_link edge_link edge_dir) =
      some ((List.range node_link.length).map
        (fun (k : Nat) => [(k : Int)] ++ (node_link.getD k []).map Int.ofNat ++
          (edge_link.getD k []).map Int.ofNat ++ edge_dir.getD k [])) := by
    refine mapM_range_some _ _ _
      (by rw [List.length_map, List.length_range]) ?_
    intro i hi
    rw [List.get?_map, List.get?_range hi]
    exact ((hsline i hi).1).trans rfl
  refine ⟨_, by unfold writeEdgeConnectivity; rw [hwrite], ?_⟩
  have hL : [[(edge_list.length : Int)], []] ++
      (List.range edge_list.length).map
        (fun k => writeInfo k (edge_list.getD k edge0)) ++
      [[]] ++ (List.range node_link.length).map
        (fun (k : Nat) => [(k : Int)] ++ (node_link.getD k []).map Int.ofNat ++
          (edge_link.getD k []).map Int.ofNat ++ edge_dir.getD k []) =
      [(edge_list.length : Int)] :: [] ::
        ((List.range edge_list.length).map
          (fun k => writeInfo k (edge_list.getD k edge0)) ++
        ([[]] ++ (List.range node_link.length).map
          (fun (k : Nat) => [(k : Int)] ++ (node_link.getD k []).map Int.ofNat ++
            (edge_link.getD k []).map Int.ofNat ++
            edge_dir.getD k []))) := by
    simp
  rw [hL]
  unfold readEdgeConnectivity
  rw [List.get?_cons_zero]
  dsimp only
  rw [List.get?_cons_zero]
  dsimp only
  rw [readNat_cast]
  dsimp only
  have hedges : (List.range edge_list.length).mapM (fun i =>
      (([(edge_list.length : Int)] :: [] ::
        ((List.range edge_list.length).map
          (fun k => writeInfo k (edge_list.getD k edge0)) ++
        ([[]] ++ (List.range node_link.length).map
          (fun (k : Nat) => [(k : Int)] ++ (node_link.getD k []).map Int.ofNat ++
            (edge_link.getD k []).map Int.ofNat ++
            edge_dir.getD k [])))).get? (2 + i)).bind readEdgeLine) =
      some edge_list := by
    refine mapM_range_some _ _ _ rfl ?_
    intro i hi
    rw [get?_cons2,
      List.get?_append (by rw [List.length_map, List.length_range]; exact hi),
      List.get?_map, List.get?_range hi]
    simp only [Option.map_some', Option.some_bind]
    rw [readEdgeLine_writeInfo]
    exact (get?_eq_some_getD edge_list edge0 i hi).symm
  rw [hedges]
  dsimp only
  have hsurfs : (List.range node_link.length).mapM (fun i =>
      (([(edge_list.length : Int)] :: [] ::
        ((List.range edge_list.length).map
          (fun k => writeInfo k (edge_list.getD k edge0)) ++
        ([[]] ++ (List.range node_link.length).map
          (fun (k : Nat) => [(k : Int)] ++ (node_link.getD k []).map Int.ofNat ++
            (edge_link.getD k []).map Int.ofNat ++
            edge_dir.getD k [])))).get?
        (3 + edge_list.length + i)).bind readSurfLine) =
      some ((List.range node_link.length).map
        (fun k => (node_link.getD k [], edge_link.getD k [],
          edge_dir.getD k []))) := by
    refine mapM_range_some _ _ _
      (by rw [List.length_map, List.length_range]) ?_
    intro i hi
    rw [show 3 + edge_list.length + i = 2 + (1 + edge_list.length + i)
        by omega,
      get?_cons2,
      List.get?_append_right
        (by rw [List.length_map, List.length_range]; omega)]
    rw [List.length_map, List.length_range]
    rw [show 1 + edge_list.length + i - edge_list.length = i + 1 by omega]
    rw [List.singleton_append, List.get?_cons_succ,
      List.get?_map, List.get?_range hi]
    simp only [Option.map_some', Option.some_bind]
    rw [(hsline i hi).2]
    rw [List.get?_map, List.get?_range hi]
    rfl
  rw [hsurfs]
  dsimp only
  rw [List.map_map, List.map_map, List.map_map]
  have hfst : (List.range node_link.length).map
      ((fun r : List Nat × List Nat × List Int => r.1) ∘
        (fun k => (node_link.getD k [], edge_link.getD k [],
          edge_dir.getD k []))) = node_link := by
    have := map_getD_range node_link ([] : List Nat) (fun x => x)
    rw [List.map_id'] at this
    exact this
  have hsnd : (List.range node_link.length).map
      ((fun r : List Nat × List Nat × List Int => r.2.1) ∘
        (fun k => (node_link.getD k [], edge_link.getD k [],
          edge_dir.getD k []))) = edge_link := by
    rw [show node_link.length = edge_link.length by omega]
    have := map_getD_range edge_link ([] : List Nat) (fun x => x)
    rw [List.map_id'] at this
    exact this
  have hthd : (List.range node_link.length).map
      ((fun r : List Nat × List Nat × List Int => r.2.2) ∘
        (fun k => (node_link.getD k [], edge_link.getD k [],
          edge_dir.getD k []))) = edge_dir := by
    rw [show node_link.length = edge_dir.length by omega]
    have := map_getD_range edge_dir ([] : List Int) (fun x => x)
    rw [List.map_id'] at this
    exact this
  rw [hfst, hsnd, hthd]

/-- C9, witness: the two-patch topology sharing edge 1 writes and reads
back identically. -/
theorem writeEdgeConnectivity_roundtrip_witness :
    ∃ lines,
      writeEdgeConnectivity nodeLinkW9 edgeLinkW9 edgeListW9 edgeDirW9 =
        some lines ∧
      readEdgeConnectivity nodeLinkW9.length lines =
        some (edgeListW9, nodeLinkW9, edgeLinkW9, edgeDirW9) :=
  writeEdgeConnectivity_roundtrip nodeLinkW9 edgeLinkW9 edgeListW9
    edgeDirW9 (by decide) (by decide) (by decide) (by decide) (by decide)

end ConnFileProofs
